import Mathlib

/-!
Verification of the Nova multi-model transcription orchestrator.

This file shallowly embeds the core pipeline of the repository:
the data model (backend/models/transcription.py, backend/models/segment.py),
the confidence analyzer (backend/core/confidence_analyzer.py),
the LLM judge's response parsing and deterministic fallback
(backend/core/llm_judge.py), and the orchestrator's merge
(backend/core/orchestrator.py), together with the timestamp re-anchoring of
segment transcription (backend/services/transcription/deepgram.py).

Modelling conventions:
- Python ints are modelled as Int, Python floats as Rat (exact arithmetic;
  the source only adds, multiplies, divides and compares confidences and
  millisecond timestamps).
- Python dicts (insertion ordered) are association lists; dict lookup is
  dictGet, which returns the first binding.
- Python int() truncation toward zero is pyInt.
- A fallible constructor (pydantic validation of OrchestratorDecision's
  confidence_boost, declared with ge=0.0, le=1.0) is modelled by returning
  Option: none models the raised ValidationError.
- async provider calls that may raise are modelled by Except outcomes;
  the orchestrator's try/except turns an exception into a None entry.
-/

namespace Nova

/-- backend/models/transcription.py: Word. -/
structure Word where
  text : String
  start_time_ms : Int
  end_time_ms : Int
  confidence : Rat
  speaker : Option String
deriving DecidableEq

/-- backend/models/transcription.py: TranscriptionResult (raw_response omitted:
it is an opaque debugging payload never read by the core pipeline). -/
structure TranscriptionResult where
  full_text : String
  words : List Word
  overall_confidence : Rat
  duration_ms : Int
  language : String
  model_name : String
deriving DecidableEq

/-- backend/models/segment.py: UncertainSegment. -/
structure UncertainSegment where
  start_time_ms : Int
  end_time_ms : Int
  original_words : List Word
  average_confidence : Rat
  context_before : String
  context_after : String
deriving DecidableEq

/-- backend/models/segment.py: UncertainSegment.original_text property. -/
def UncertainSegment.original_text (s : UncertainSegment) : String :=
  String.intercalate " " (s.original_words.map (·.text))

/-- backend/models/segment.py: CandidateTranscription. -/
structure CandidateTranscription where
  model_name : String
  text : String
  confidence : Rat
  words : List Word
deriving DecidableEq

/-- backend/models/segment.py: OrchestratorDecision. The candidate map is an
insertion-ordered association list, as Python dicts are. -/
structure OrchestratorDecision where
  segment : UncertainSegment
  candidate_transcriptions : List (String × CandidateTranscription)
  chosen_source : String
  final_text : String
  reasoning : String
  confidence_boost : Rat
  was_synthesized : Bool
  synthesis_justification : Option String
deriving DecidableEq

/-- Python dict lookup on an association list: first binding wins. -/
def dictGet {α : Type} (k : String) : List (String × α) → Option α
  | [] => none
  | (k', v) :: rest => if k' = k then some v else dictGet k rest

/-- Mean of word confidences, as computed by sum(...)/len(...) in the source. -/
def avgConf (ws : List Word) : Rat :=
  (ws.map (·.confidence)).sum / (ws.length : Rat)

/-- backend/models/transcription.py: TranscriptionResult.get_context_before.
Python words_before[-word_count:] keeps the whole list when word_count is 0. -/
def getContextBefore (tr : TranscriptionResult) (position_ms : Int)
    (word_count : Nat) : String :=
  let words_before := tr.words.filter (fun w => w.end_time_ms ≤ position_ms)
  let context_words :=
    if words_before.length > word_count then
      if word_count = 0 then words_before
      else words_before.drop (words_before.length - word_count)
    else words_before
  String.intercalate " " (context_words.map (·.text))

/-- backend/models/transcription.py: TranscriptionResult.get_context_after. -/
def getContextAfter (tr : TranscriptionResult) (position_ms : Int)
    (word_count : Nat) : String :=
  let words_after := tr.words.filter (fun w => position_ms ≤ w.start_time_ms)
  String.intercalate " " ((words_after.take word_count).map (·.text))

/-- backend/core/confidence_analyzer.py: the analyzer's configuration. -/
structure ConfidenceAnalyzer where
  confidence_threshold : Rat := mkRat 3 4
  min_segment_duration_ms : Int := 500
  max_segment_duration_ms : Int := 10000
  context_window_words : Nat := 50
deriving DecidableEq

/-- backend/core/confidence_analyzer.py: ConfidenceAnalyzer._create_segment.
Returns none for an empty group or one shorter than the minimum duration. -/
def createSegment (a : ConfidenceAnalyzer) (words : List Word)
    (tr : TranscriptionResult) : Option UncertainSegment :=
  match words with
  | [] => none
  | w0 :: rest =>
    let start_time_ms := w0.start_time_ms
    let end_time_ms := ((w0 :: rest).getLastD w0).end_time_ms
    let duration_ms := end_time_ms - start_time_ms
    if duration_ms < a.min_segment_duration_ms then none
    else
      some
        { start_time_ms := start_time_ms
          end_time_ms := end_time_ms
          original_words := w0 :: rest
          average_confidence := avgConf (w0 :: rest)
          context_before := getContextBefore tr start_time_ms a.context_window_words
          context_after := getContextAfter tr end_time_ms a.context_window_words }

/-- The grouping walk of identify_uncertain_segments: accumulate consecutive
words below the threshold, close the group on a confident word and at the end.
(Python calls _create_segment only when the group is non-empty, but
_create_segment returns None on an empty list anyway, so the guard is
equivalent to the unconditional call here.) -/
def identifyLoop (a : ConfidenceAnalyzer) (tr : TranscriptionResult) :
    List Word → List Word → List UncertainSegment
  | [], cur =>
    match createSegment a cur tr with
    | some s => [s]
    | none => []
  | w :: rest, cur =>
    if w.confidence < a.confidence_threshold then
      identifyLoop a tr rest (cur ++ [w])
    else
      (match createSegment a cur tr with
       | some s => [s]
       | none => []) ++ identifyLoop a tr rest []

/-- backend/core/confidence_analyzer.py: the merge of two adjacent segments
inside _merge_adjacent_segments (the body of the gap <= threshold branch). -/
def combineSegments (last seg : UncertainSegment) : UncertainSegment :=
  let merged_words := last.original_words ++ seg.original_words
  { start_time_ms := last.start_time_ms
    end_time_ms := seg.end_time_ms
    original_words := merged_words
    average_confidence :=
      (last.average_confidence * (last.original_words.length : Rat) +
        seg.average_confidence * (seg.original_words.length : Rat)) /
        (merged_words.length : Rat)
    context_before := last.context_before
    context_after := seg.context_after }

/-- The walk of _merge_adjacent_segments, carrying merged[-1] as an argument. -/
def mergeAux (gap_threshold_ms : Int) :
    UncertainSegment → List UncertainSegment → List UncertainSegment
  | last, [] => [last]
  | last, seg :: rest =>
    if seg.start_time_ms - last.end_time_ms ≤ gap_threshold_ms then
      mergeAux gap_threshold_ms (combineSegments last seg) rest
    else
      last :: mergeAux gap_threshold_ms seg rest

/-- backend/core/confidence_analyzer.py: ConfidenceAnalyzer._merge_adjacent_segments. -/
def mergeAdjacentSegments (gap_threshold_ms : Int) :
    List UncertainSegment → List UncertainSegment
  | [] => []
  | seg :: rest => mergeAux gap_threshold_ms seg rest

/-- The chunking loop of _split_long_segments for one long segment:
chunk_start_ms and the accumulated chunk words are carried; a chunk is emitted
at the first word whose end reaches max_segment_duration_ms past the chunk
start, and the leftover words form a final chunk. -/
def splitChunks (a : ConfidenceAnalyzer) (parent : UncertainSegment) :
    Int → List Word → List Word → List UncertainSegment
  | chunk_start_ms, chunk_words, [] =>
    match chunk_words with
    | [] => []
    | c0 :: cs =>
      [{ start_time_ms := chunk_start_ms
         end_time_ms := ((c0 :: cs).getLastD c0).end_time_ms
         original_words := c0 :: cs
         average_confidence := avgConf (c0 :: cs)
         context_before := parent.context_before
         context_after := parent.context_after }]
  | chunk_start_ms, chunk_words, w :: rest =>
    let chunk_words' := chunk_words ++ [w]
    if a.max_segment_duration_ms ≤ w.end_time_ms - chunk_start_ms then
      { start_time_ms := chunk_start_ms
        end_time_ms := w.end_time_ms
        original_words := chunk_words'
        average_confidence := avgConf chunk_words'
        context_before := parent.context_before
        context_after := parent.context_after } ::
        splitChunks a parent w.end_time_ms [] rest
    else
      splitChunks a parent chunk_start_ms chunk_words' rest

/-- backend/core/confidence_analyzer.py: ConfidenceAnalyzer._split_long_segments. -/
def splitLongSegments (a : ConfidenceAnalyzer) (segs : List UncertainSegment) :
    List UncertainSegment :=
  (segs.map (fun seg =>
    if seg.end_time_ms - seg.start_time_ms ≤ a.max_segment_duration_ms then [seg]
    else
      let chunk_start0 :=
        match seg.original_words with
        | [] => 0
        | w :: _ => w.start_time_ms
      splitChunks a seg chunk_start0 [] seg.original_words)).flatten

/-- backend/core/confidence_analyzer.py: identify_uncertain_segments
(group, materialize, merge adjacent with the default 1000 ms gap, split long). -/
def identifyUncertainSegments (a : ConfidenceAnalyzer)
    (tr : TranscriptionResult) : List UncertainSegment :=
  splitLongSegments a (mergeAdjacentSegments 1000 (identifyLoop a tr tr.words []))

/-- The decoded JSON object a judge response parses to: each field of the
expected schema is present or absent. confidence_boost is the numeric value
after Python float() conversion. -/
structure JudgeData where
  chosen_source : Option String
  final_text : Option String
  reasoning : Option String
  confidence_boost : Option Rat
  synthesis_justification : Option String
deriving DecidableEq

/-- Python str.lower() on the response's chosen_source (ASCII model:
lowercase every character). -/
def pyLower (s : String) : String := String.mk (s.data.map Char.toLower)

/-- The valid chosen_source values of llm_judge.py: providers plus the
synthesized sentinel. -/
def validSources : List String := ["deepgram", "assemblyai", "whisper", "synthesized"]

/-- backend/core/llm_judge.py: the candidate_transcriptions dict built inside
_parse_response: failed providers (None results) are skipped, successful ones
become CandidateTranscription entries keyed by provider name. -/
def buildCandidates (candidates : List (String × Option TranscriptionResult)) :
    List (String × CandidateTranscription) :=
  candidates.filterMap (fun nr =>
    match nr.2 with
    | some r => some (nr.1,
        { model_name := nr.1
          text := r.full_text
          confidence := r.overall_confidence
          words := r.words })
    | none => none)

/-- backend/core/llm_judge.py: LLMJudge._parse_response on decoded JSON data.
Returns none when constructing the OrchestratorDecision raises a pydantic
ValidationError, which happens exactly when confidence_boost falls outside
the declared ge=0.0, le=1.0 bounds (all other constructed fields come from
already-validated models). -/
def parseResponse (data : JudgeData) (segment : UncertainSegment)
    (candidates : List (String × Option TranscriptionResult)) :
    Option OrchestratorDecision :=
  let chosen0 := pyLower (data.chosen_source.getD "deepgram")
  let final_text := data.final_text.getD segment.original_text
  let reasoning := data.reasoning.getD "Automatic selection"
  let confidence_boost := data.confidence_boost.getD (mkRat 4 5)
  let chosen_source := if chosen0 ∈ validSources then chosen0 else "deepgram"
  if 0 ≤ confidence_boost ∧ confidence_boost ≤ 1 then
    some
      { segment := segment
        candidate_transcriptions := buildCandidates candidates
        chosen_source := chosen_source
        final_text := final_text
        reasoning := reasoning
        confidence_boost := confidence_boost
        was_synthesized := chosen_source = "synthesized"
        synthesis_justification := data.synthesis_justification }
  else none

/-- The accumulator walk of LLMJudge._fallback_decision over the candidate
dict: the running best (source, confidence, text) is replaced whenever a
present candidate's overall_confidence strictly exceeds the best so far. -/
def fallbackLoop : String × Rat × String →
    List (String × Option TranscriptionResult) → String × Rat × String
  | best, [] => best
  | best, (name, r) :: rest =>
    match r with
    | some tr =>
      if best.2.1 < tr.overall_confidence then
        fallbackLoop (name, tr.overall_confidence, tr.full_text) rest
      else fallbackLoop best rest
    | none => fallbackLoop best rest

/-- backend/core/llm_judge.py: LLMJudge._fallback_decision. It returns a plain
dict (here: JudgeData) that _parse_response then consumes. -/
def fallbackDecision (segment : UncertainSegment)
    (candidates : List (String × Option TranscriptionResult)) : JudgeData :=
  let best := fallbackLoop ("deepgram", 0, segment.original_text) candidates
  { chosen_source := some best.1
    final_text := some best.2.2
    reasoning := some "Automatic fallback: selected highest confidence"
    confidence_boost := some (min (best.2.1 + mkRat 1 10) 1)
    synthesis_justification := none }

/-- backend/core/orchestrator.py: TranscriptionOrchestrator._get_all_transcriptions.
Each provider call's outcome (value or raised exception) is given as an Except;
the try/except around each await stores None for a provider that raised. -/
def getAllTranscriptions (outcomes : List (String × Except String TranscriptionResult)) :
    List (String × Option TranscriptionResult) :=
  outcomes.map (fun ne => (ne.1, ne.2.toOption))

/-- backend/services/transcription/deepgram.py: the timestamp adjustment in
transcribe_segment. Words of the clip transcription (timestamps relative to
the extracted clip, which starts at start_time_ms minus up to 100 ms of
padding) are re-anchored by adding start_time_ms. -/
def adjustSegmentWords (start_time_ms : Int) (ws : List Word) : List Word :=
  ws.map (fun w =>
    { w with
      start_time_ms := w.start_time_ms + start_time_ms
      end_time_ms := w.end_time_ms + start_time_ms })

/-- Python int() truncation toward zero, applied to an exact rational. -/
def pyInt (q : Rat) : Int := if 0 ≤ q then ⌊q⌋ else ⌈q⌉

/-- Tokenizer for Python str.split() with no argument: walk the characters,
accumulating the current (reversed) token; whitespace closes it. Runs of
whitespace and leading or trailing whitespace produce no empty tokens. -/
def pyTokens : List Char → List Char → List String
  | acc, [] => if acc = [] then [] else [String.mk acc.reverse]
  | acc, c :: rest =>
    if c.isWhitespace then
      (if acc = [] then [] else [String.mk acc.reverse]) ++ pyTokens [] rest
    else pyTokens (c :: acc) rest

/-- Python str.split() with no argument: split on whitespace runs, dropping
empty tokens. -/
def pySplit (s : String) : List String := pyTokens [] s.data

/-- backend/core/orchestrator.py: TranscriptionOrchestrator._create_words_from_text.
word_duration is the exact rational duration/N; int() truncation produces the
stored timestamps. -/
def createWordsFromText (text : String) (start_ms end_ms : Int)
    (confidence : Rat) : List Word :=
  let words_list := pySplit text
  if words_list.length = 0 then []
  else
    let duration : Int := end_ms - start_ms
    let word_duration : Rat := (duration : Rat) / (words_list.length : Rat)
    words_list.enum.map (fun it =>
      let word_start := pyInt ((start_ms : Rat) + (it.1 : Rat) * word_duration)
      let word_end := pyInt ((word_start : Rat) + word_duration)
      { text := it.2
        start_time_ms := word_start
        end_time_ms := word_end
        confidence := confidence
        speaker := none })

/-- The replacement word list one decision contributes during the merge:
the three branches of _merge_decisions (synthesized text, chosen candidate's
words with boosted confidence, or the original words with boosted confidence). -/
def replacementWords (d : OrchestratorDecision) : List Word :=
  if d.chosen_source = "synthesized" then
    createWordsFromText d.final_text d.segment.start_time_ms
      d.segment.end_time_ms d.confidence_boost
  else
    match dictGet d.chosen_source d.candidate_transcriptions with
    | some c => c.words.map (fun cw => { cw with confidence := d.confidence_boost })
    | none => d.segment.original_words.map (fun ow =>
        { ow with confidence := d.confidence_boost })

/-- The while loop of _merge_decisions. The current decision (decisions head)
replaces the span once a primary word falls inside its segment; the skip loop
advances past every primary word whose end does not exceed the segment end
(the matching word itself satisfies that bound, so dropping from the tail is
the same drop the source performs from the current index). -/
def mergeLoop : List Word → List OrchestratorDecision → List Word
  | [], _ => []
  | w :: rest, [] => w :: mergeLoop rest []
  | w :: rest, d :: ds =>
    if d.segment.start_time_ms ≤ w.start_time_ms ∧
        w.end_time_ms ≤ d.segment.end_time_ms then
      replacementWords d ++
        mergeLoop (rest.dropWhile (fun x => x.end_time_ms ≤ d.segment.end_time_ms)) ds
    else
      w :: mergeLoop rest (d :: ds)
termination_by ws _ => ws.length
decreasing_by
  · simp
  · exact Nat.lt_succ_of_le (List.dropWhile_suffix _).sublist.length_le
  · simp

/-- backend/core/orchestrator.py: TranscriptionOrchestrator._merge_decisions. -/
def mergeDecisions (primary : TranscriptionResult)
    (decisions : List OrchestratorDecision) : TranscriptionResult :=
  if decisions = [] then primary
  else
    let merged_words := mergeLoop primary.words decisions
    { full_text := String.intercalate " " (merged_words.map (·.text))
      words := merged_words
      overall_confidence :=
        if merged_words = [] then primary.overall_confidence
        else avgConf merged_words
      duration_ms := primary.duration_ms
      language := primary.language
      model_name := "orchestrated" }

/-- Modelled from the spec and the await-semantics of orchestrator.py lines
177 to 191: _get_all_transcriptions builds bare coroutines and awaits them one
after another in a for loop (no task wrapping, no gather), so a coroutine only
starts running when its await begins and finishes before the next await
starts. Given the providers' call durations and a start time, this yields the
execution intervals of the three calls under that sequential schedule. -/
def seqAwaitIntervals (t0 : Int) : List Int → List (Int × Int)
  | [] => []
  | dur :: rest => (t0, t0 + dur) :: seqAwaitIntervals (t0 + dur) rest

/-- A primary word is consumed by a decision when it lies inside the
decision's segment: the membership test of _merge_decisions. -/
abbrev wordInSeg (w : Word) (s : UncertainSegment) : Prop :=
  s.start_time_ms ≤ w.start_time_ms ∧ w.end_time_ms ≤ s.end_time_ms

/-- Monotone, non-overlapping word timestamps: for consecutive words the
earlier end does not exceed the later start. -/
abbrev wordLe (x y : Word) : Prop := x.end_time_ms ≤ y.start_time_ms

/-- Decisions ordered by disjoint segments, as the analyzer produces them. -/
abbrev decLe (d e : OrchestratorDecision) : Prop :=
  d.segment.end_time_ms ≤ e.segment.start_time_ms

/-- A word does not straddle the boundary b: it ends at or before b, or
starts at or after b. Both segment boundaries of analyzer segments are word
boundaries of the primary transcript, so its words satisfy this. -/
abbrev wordAligned (w : Word) (s : UncertainSegment) : Prop :=
  (w.end_time_ms ≤ s.start_time_ms ∨ s.start_time_ms ≤ w.start_time_ms) ∧
  (w.end_time_ms ≤ s.end_time_ms ∨ s.end_time_ms ≤ w.start_time_ms)

/-- Declarative description of the merge: for each decision in order, copy the
primary words that end at or before its segment start, emit the decision's
replacement words, drop every primary word that ends at or before the segment
end, and continue; leftover words are copied. No primary word that lies inside
a decision segment is ever copied. -/
def declMerge : List Word → List OrchestratorDecision → List Word
  | ws, [] => ws
  | ws, d :: ds =>
    ws.takeWhile (fun w => w.end_time_ms ≤ d.segment.start_time_ms) ++
      replacementWords d ++
      declMerge (ws.dropWhile (fun w => w.end_time_ms ≤ d.segment.end_time_ms)) ds

/-- Invariant carried by every segment the analyzer constructs: its words are
the non-empty group it was built from, all below the threshold and with valid
confidences, and its average confidence is their mean. -/
def SegMeanInv (a : ConfidenceAnalyzer) (s : UncertainSegment) : Prop :=
  s.original_words ≠ [] ∧
  s.average_confidence = avgConf s.original_words ∧
  ∀ w ∈ s.original_words, w.confidence < a.confidence_threshold ∧
    0 ≤ w.confidence ∧ w.confidence ≤ 1

/-- Executable adjacent-pair check, used to evaluate Chain' hypotheses on
concrete lists. -/
def chainCheck {α : Type} (R : α → α → Bool) : List α → Bool
  | [] => true
  | [_] => true
  | x :: y :: rest => R x y && chainCheck R (y :: rest)

/-- The analyzer with its default configuration. -/
def defaultAnalyzer : ConfidenceAnalyzer := {}

/-- Fixture: a three-word transcript whose low-confidence words form one group
of duration 10200 ms, longer than the 10000 ms maximum, so it is split. -/
def trSplit : TranscriptionResult :=
  { full_text := "alpha beta gamma"
    words :=
      [ { text := "alpha", start_time_ms := 0, end_time_ms := 9999,
          confidence := mkRat 1 2, speaker := none }
      , { text := "beta", start_time_ms := 9999, end_time_ms := 10001,
          confidence := mkRat 1 2, speaker := none }
      , { text := "gamma", start_time_ms := 10001, end_time_ms := 10200,
          confidence := mkRat 1 2, speaker := none } ]
    overall_confidence := mkRat 1 2
    duration_ms := 10200
    language := "en"
    model_name := "deepgram-nova-3" }

/-- Fixture: an uncertain segment used to exercise the judge paths. -/
def segFix : UncertainSegment :=
  { start_time_ms := 1000
    end_time_ms := 2000
    original_words :=
      [ { text := "patent", start_time_ms := 1000, end_time_ms := 2000,
          confidence := mkRat 1 2, speaker := none } ]
    average_confidence := mkRat 1 2
    context_before := "the"
    context_after := "was filed"
    }

/-- Fixture: a segment transcription whose overall confidence is zero. -/
def trZero : TranscriptionResult :=
  { full_text := "patient"
    words := []
    overall_confidence := 0
    duration_ms := 1000
    language := "en"
    model_name := "whisper-1" }

/-- Fixture: a successful segment transcription with confidence 3/5. -/
def trGood : TranscriptionResult :=
  { full_text := "the patient"
    words :=
      [ { text := "the", start_time_ms := 1000, end_time_ms := 1400,
          confidence := mkRat 3 5, speaker := none }
      , { text := "patient", start_time_ms := 1400, end_time_ms := 2000,
          confidence := mkRat 3 5, speaker := none } ]
    overall_confidence := mkRat 3 5
    duration_ms := 1000
    language := "en"
    model_name := "assemblyai-universal"
    }

/-- Fixture: a three-word monotone primary transcript around segFix. -/
def prFix : TranscriptionResult :=
  { full_text := "the patent was"
    words :=
      [ { text := "the", start_time_ms := 0, end_time_ms := 1000,
          confidence := mkRat 9 10, speaker := none }
      , { text := "patent", start_time_ms := 1000, end_time_ms := 2000,
          confidence := mkRat 1 2, speaker := none }
      , { text := "was", start_time_ms := 2000, end_time_ms := 3000,
          confidence := mkRat 9 10, speaker := none } ]
    overall_confidence := mkRat 4 5
    duration_ms := 3000
    language := "en"
    model_name := "deepgram-nova-3" }

/-- Fixture: a candidate whose words were re-anchored by transcribe_segment.
The clip for segFix spans 900 to 2100 ms of the original audio (100 ms of
padding on each side), so a clip word timed 0 to 1100 is legitimate provider
output; re-anchoring places it at 1000 to 2100, past the segment end. -/
def candPadded : CandidateTranscription :=
  { model_name := "deepgram"
    text := "patient"
    confidence := mkRat 9 10
    words := adjustSegmentWords 1000
      [ { text := "patient", start_time_ms := 0, end_time_ms := 1100,
          confidence := mkRat 9 10, speaker := none } ] }

/-- Fixture: a decision that selects the padded candidate for segFix. -/
def decPadded : OrchestratorDecision :=
  { segment := segFix
    candidate_transcriptions := [("deepgram", candPadded)]
    chosen_source := "deepgram"
    final_text := "patient"
    reasoning := "selected"
    confidence_boost := mkRat 9 10
    was_synthesized := false
    synthesis_justification := none }

/-- Fixture: a decision that synthesizes three words over segFix shifted to a
10 ms span, exhibiting the integer word timings of _create_words_from_text. -/
def decSynth : OrchestratorDecision :=
  { segment :=
      { start_time_ms := 0
        end_time_ms := 10
        original_words :=
          [ { text := "x", start_time_ms := 0, end_time_ms := 10,
              confidence := mkRat 1 2, speaker := none } ]
        average_confidence := mkRat 1 2
        context_before := ""
        context_after := "" }
    candidate_transcriptions := []
    chosen_source := "synthesized"
    final_text := "blood pressure high"
    reasoning := "all candidates nonsensical"
    confidence_boost := mkRat 7 10
    was_synthesized := true
    synthesis_justification := some "none fit"
    }

/-- Fixture: a one-word primary transcript for the synthesized-merge run. -/
def prSynth : TranscriptionResult :=
  { full_text := "x"
    words :=
      [ { text := "x", start_time_ms := 0, end_time_ms := 10,
          confidence := mkRat 1 2, speaker := none } ]
    overall_confidence := mkRat 1 2
    duration_ms := 10
    language := "en"
    model_name := "deepgram-nova-3" }

/-- Fixture: a four-word primary transcript whose second word is a confident
word lying in the gap of a merged uncertain segment spanning 0 to 2200 ms. -/
def prGap : TranscriptionResult :=
  { full_text := "um okay uh next"
    words :=
      [ { text := "um", start_time_ms := 0, end_time_ms := 600,
          confidence := mkRat 1 2, speaker := none }
      , { text := "okay", start_time_ms := 600, end_time_ms := 1600,
          confidence := mkRat 9 10, speaker := none }
      , { text := "uh", start_time_ms := 1600, end_time_ms := 2200,
          confidence := mkRat 1 2, speaker := none }
      , { text := "next", start_time_ms := 2200, end_time_ms := 3000,
          confidence := mkRat 9 10, speaker := none } ]
    overall_confidence := mkRat 7 10
    duration_ms := 3000
    language := "en"
    model_name := "deepgram-nova-3" }

/-- Fixture: the merged uncertain segment of prGap: it spans 0 to 2200 ms but
its original_words hold only the two low-confidence words; the confident gap
word okay is inside the span but not among them. -/
def segGap : UncertainSegment :=
  { start_time_ms := 0
    end_time_ms := 2200
    original_words :=
      [ { text := "um", start_time_ms := 0, end_time_ms := 600,
          confidence := mkRat 1 2, speaker := none }
      , { text := "uh", start_time_ms := 1600, end_time_ms := 2200,
          confidence := mkRat 1 2, speaker := none } ]
    average_confidence := mkRat 1 2
    context_before := ""
    context_after := "next" }

/-- Fixture: a decision over segGap whose chosen source is absent from the
candidate map, so the merge re-emits only original_words, boosted. -/
def decGap : OrchestratorDecision :=
  { segment := segGap
    candidate_transcriptions := []
    chosen_source := "whisper"
    final_text := "um uh"
    reasoning := "fallback"
    confidence_boost := mkRat 9 10
    was_synthesized := false
    synthesis_justification := none }

/-- Fixture: a decision over segGap selecting a candidate whose re-anchored
words stay inside the segment bounds. -/
def decSel : OrchestratorDecision :=
  { segment := segGap
    candidate_transcriptions :=
      [ ("deepgram",
        { model_name := "deepgram"
          text := "hmm okay"
          confidence := mkRat 4 5
          words :=
            [ { text := "hmm", start_time_ms := 100, end_time_ms := 1000,
                confidence := mkRat 4 5, speaker := none }
            , { text := "okay", start_time_ms := 1100, end_time_ms := 2100,
                confidence := mkRat 4 5, speaker := none } ] }) ]
    chosen_source := "deepgram"
    final_text := "hmm okay"
    reasoning := "selected"
    confidence_boost := mkRat 9 10
    was_synthesized := false
    synthesis_justification := none }

/-- Fixture: a decoded judge response with an unknown chosen_source and no
confidence_boost field. -/
def dataU : JudgeData :=
  { chosen_source := some "GPT"
    final_text := none
    reasoning := none
    confidence_boost := none
    synthesis_justification := none }

/-- Fixture: the decision _parse_response builds from dataU over segFix with
the one successful candidate trGood. -/
def decU : OrchestratorDecision :=
  { segment := segFix
    candidate_transcriptions := buildCandidates [("deepgram", some trGood)]
    chosen_source := "deepgram"
    final_text := segFix.original_text
    reasoning := "Automatic selection"
    confidence_boost := mkRat 4 5
    was_synthesized := false
    synthesis_justification := none }

/-- Fixture: an uncertain segment 500 to 1400 ms (one low-confidence word). -/
def segA : UncertainSegment :=
  { start_time_ms := 500
    end_time_ms := 1400
    original_words :=
      [ { text := "um", start_time_ms := 500, end_time_ms := 1400,
          confidence := mkRat 1 2, speaker := none } ]
    average_confidence := mkRat 1 2
    context_before := "he said"
    context_after := "then" }

/-- Fixture: an uncertain segment 2000 to 2800 ms, 600 ms after segA. -/
def segB : UncertainSegment :=
  { start_time_ms := 2000
    end_time_ms := 2800
    original_words :=
      [ { text := "uh", start_time_ms := 2000, end_time_ms := 2800,
          confidence := mkRat 2 5, speaker := none } ]
    average_confidence := mkRat 2 5
    context_before := "then"
    context_after := "done" }

/-- Fixture: fan-out outcomes where exactly the assemblyai call raised. -/
def outW : List (String × Except String TranscriptionResult) :=
  [ ("deepgram", Except.ok trGood)
  , ("assemblyai", Except.error "boom")
  , ("whisper", Except.ok trZero) ]

section Theorems

/-- Chain' agrees with the executable adjacent-pair check. -/
theorem chain'_iff_chainCheck {α : Type} {R : α → α → Prop} [DecidableRel R] :
    ∀ {l : List α}, List.Chain' R l ↔ chainCheck (fun a b => decide (R a b)) l = true := by
  intro l
  induction l with
  | nil => simp [chainCheck]
  | cons x rest ih =>
    cases rest with
    | nil => simp [chainCheck]
    | cons y t =>
      rw [List.chain'_cons, chainCheck]
      rw [Bool.and_eq_true, decide_eq_true_iff]
      exact and_congr Iff.rfl ih

/-! ### Association-list (Python dict) lemmas -/

theorem dictGet_eq_some_mem {α : Type} {k : String} {v : α} :
    ∀ {l : List (String × α)}, dictGet k l = some v → (k, v) ∈ l := by
  intro l
  induction l with
  | nil => intro h; simp [dictGet] at h
  | cons p rest ih =>
    intro h
    rw [dictGet] at h
    by_cases hk : p.1 = k
    · rw [if_pos hk] at h
      rcases p with ⟨a, b⟩
      obtain rfl : a = k := hk
      obtain rfl : b = v := Option.some.inj h
      exact List.mem_cons_self _ _
    · rw [if_neg hk] at h
      exact List.mem_cons_of_mem _ (ih h)

theorem dictGet_getAllTranscriptions (k : String)
    (outcomes : List (String × Except String TranscriptionResult)) :
    dictGet k (getAllTranscriptions outcomes) =
      (dictGet k outcomes).map Except.toOption := by
  induction outcomes with
  | nil => rfl
  | cons p rest ih =>
    rw [getAllTranscriptions] at *
    simp only [List.map_cons, dictGet]
    by_cases hk : p.1 = k
    · rw [if_pos hk, if_pos hk]
      rfl
    · rw [if_neg hk, if_neg hk]
      exact ih

theorem dictGet_mem_of_mem {α : Type} {k : String} {l : List (String × α)} {v : α}
    (h : (k, v) ∈ l) : ∃ v', dictGet k l = some v' := by
  induction l with
  | nil => cases h
  | cons p rest ih =>
    rw [dictGet]
    by_cases hk : p.1 = k
    · exact ⟨p.2, if_pos hk⟩
    · rw [if_neg hk]
      rcases List.mem_cons.mp h with h | h

      · exact absurd (congrArg Prod.fst h.symm) hk
      · exact ih h

theorem dictGet_buildCandidates_none {k : String}
    {cands : List (String × Option TranscriptionResult)}
    (h : ∀ r, (k, r) ∈ cands → r = none) :
    dictGet k (buildCandidates cands) = none := by
  induction cands with
  | nil => rfl
  | cons p rest ih =>
    have hrest : ∀ r, (k, r) ∈ rest → r = none := fun r hr =>
      h r (List.mem_cons_of_mem _ hr)
    rw [buildCandidates] at *
    rcases p with ⟨name, r⟩
    cases r with
    | none => simpa using ih hrest
    | some tr =>
      simp only [List.filterMap_cons]
      rw [dictGet]
      by_cases hk : name = k
      · subst hk
        exact absurd (h (some tr) (List.mem_cons_self _ _)) (by simp)
      · rw [if_neg hk]
        exact ih hrest

/-! ### C3: judge response parsing -/

/-- C3 amended: _parse_response coerces an unknown chosen_source to
"deepgram" and defaults a missing confidence_boost to 0.8, but it does NOT
clamp confidence_boost: a decision is returned exactly when the (defaulted)
boost already lies in the closed interval from 0 to 1, and the returned
decision carries that value unchanged; outside the interval the
OrchestratorDecision validation fails and no decision is produced. -/
theorem C3_parse_amended (data : JudgeData) (segment : UncertainSegment)
    (candidates : List (String × Option TranscriptionResult)) :
    ((parseResponse data segment candidates).isSome ↔
      (0 ≤ data.confidence_boost.getD (mkRat 4 5) ∧ data.confidence_boost.getD (mkRat 4 5) ≤ 1)) ∧
    (∀ dec, parseResponse data segment candidates = some dec →
      dec.confidence_boost = data.confidence_boost.getD (mkRat 4 5) ∧
      (data.confidence_boost = none → dec.confidence_boost = mkRat 4 5) ∧
      (pyLower (data.chosen_source.getD "deepgram") ∉ validSources →
        dec.chosen_source = "deepgram")) := by
  by_cases h : 0 ≤ data.confidence_boost.getD (mkRat 4 5) ∧ data.confidence_boost.getD (mkRat 4 5) ≤ 1
  · constructor
    · simp [parseResponse, h]
    · intro dec hdec
      simp only [parseResponse, if_pos h, Option.some.injEq] at hdec
      subst hdec
      refine ⟨rfl, fun hnone => by simp [hnone], fun hns => ?_⟩
      simp [if_neg hns]
  · constructor
    · simp [parseResponse, h]
    · intro dec hdec
      simp [parseResponse, if_neg h] at hdec

/-- C3 counterexample: a parsed response whose confidence_boost is 1.5
produces no decision (the pydantic range check rejects it) instead of being
clamped into the unit interval. -/
theorem C3_counterexample :
    parseResponse
      { chosen_source := some "deepgram"
        final_text := some "the patient"
        reasoning := some "selected"
        confidence_boost := some (mkRat 3 2)
        synthesis_justification := none }
      segFix [("deepgram", some trGood)] = none := by decide

/-- C3 witness: on the concrete response dataU (unknown source, missing
boost) a decision is produced with source "deepgram" and boost 0.8. -/
theorem C3_witness :
    decU.confidence_boost = dataU.confidence_boost.getD (mkRat 4 5) ∧
    (dataU.confidence_boost = none → decU.confidence_boost = mkRat 4 5) ∧
    (pyLower (dataU.chosen_source.getD "deepgram") ∉ validSources →
      decU.chosen_source = "deepgram") :=
  (C3_parse_amended dataU segFix [("deepgram", some trGood)]).2 decU (by decide)

/-! ### C4: tolerance of a single provider failure -/

/-- C4: when exactly one provider's transcribe_segment call raises during the
fan-out, that provider is stored as a None entry in the results dict, its name
is an absent key both in the candidate map the judge builds and in the
returned decision's candidate_transcriptions, and (whenever the judge's
decoded response carries an in-range confidence_boost, which includes the
deterministic fallback) a decision is still produced for the segment. -/
theorem C4_provider_failure
    (outcomes : List (String × Except String TranscriptionResult))
    (name msg : String) (data : JudgeData) (segment : UncertainSegment)
    (hmem : (name, Except.error msg) ∈ outcomes)
    (huniq : ∀ r, (name, r) ∈ outcomes → r = Except.error msg)
    (hboost : 0 ≤ data.confidence_boost.getD (mkRat 4 5) ∧
      data.confidence_boost.getD (mkRat 4 5) ≤ 1) :
    dictGet name (getAllTranscriptions outcomes) = some none ∧
    dictGet name (buildCandidates (getAllTranscriptions outcomes)) = none ∧
    ∃ dec, parseResponse data segment (getAllTranscriptions outcomes) = some dec ∧
      dictGet name dec.candidate_transcriptions = none := by
  have h1 : dictGet name (getAllTranscriptions outcomes) = some none := by
    rw [dictGet_getAllTranscriptions]
    obtain ⟨v, hv⟩ := dictGet_mem_of_mem hmem
    obtain rfl : v = Except.error msg := huniq v (dictGet_eq_some_mem hv)
    rw [hv]
    rfl
  have h2 : ∀ r, (name, r) ∈ getAllTranscriptions outcomes → r = none := by
    intro r hr
    rw [getAllTranscriptions] at hr
    rcases List.mem_map.mp hr with ⟨⟨n, ex⟩, hmem', heq⟩
    rcases Prod.mk.injEq .. ▸ heq with ⟨rfl, rfl⟩
    obtain rfl : ex = Except.error msg := huniq ex hmem'
    rfl
  have h3 := dictGet_buildCandidates_none h2
  refine ⟨h1, h3, ?_⟩
  have hsome : (parseResponse data segment (getAllTranscriptions outcomes)).isSome := by
    simp [parseResponse, hboost]
  obtain ⟨dec, hdec⟩ := Option.isSome_iff_exists.mp hsome
  refine ⟨dec, hdec, ?_⟩
  have hct : dec.candidate_transcriptions =
      buildCandidates (getAllTranscriptions outcomes) := by
    simp only [parseResponse, if_pos hboost, Option.some.injEq] at hdec
    rw [← hdec]
  rw [hct]
  exact h3

/-- C4 witness: the concrete fan-out outW in which only the assemblyai call
raised, evaluated with the judge response dataU. -/
theorem C4_witness :
    dictGet "assemblyai" (getAllTranscriptions outW) = some none ∧
    dictGet "assemblyai" (buildCandidates (getAllTranscriptions outW)) = none ∧
    ∃ dec, parseResponse dataU segFix (getAllTranscriptions outW) = some dec ∧
      dictGet "assemblyai" dec.candidate_transcriptions = none :=
  C4_provider_failure outW "assemblyai" "boom" dataU segFix
    (by simp [outW])
    (by
      intro r hr
      simp [outW] at hr
      exact hr)
    (by decide)

/-! ### C7: the deterministic fallback -/

/-- The accumulator walk of _fallback_decision either keeps its initial best
(when no present candidate strictly beats it) or lands on a present candidate
whose confidence strictly beats the initial best and is maximal. -/
theorem fallbackLoop_spec :
    ∀ (cands : List (String × Option TranscriptionResult)) (b : String × Rat × String),
      (fallbackLoop b cands = b ∧
        ∀ n tr, (n, some tr) ∈ cands → tr.overall_confidence ≤ b.2.1) ∨
      (∃ n tr, (n, some tr) ∈ cands ∧
        fallbackLoop b cands = (n, tr.overall_confidence, tr.full_text) ∧
        b.2.1 < tr.overall_confidence ∧
        ∀ m tr', (m, some tr') ∈ cands →
          tr'.overall_confidence ≤ tr.overall_confidence) := by
  intro cands
  induction cands with
  | nil =>
    intro b
    left
    exact ⟨rfl, by simp⟩
  | cons p rest ih =>
    intro b
    rcases p with ⟨name, r⟩
    cases r with
    | none =>
      rcases ih b with ⟨heq, hb⟩ | ⟨n, tr, hmem, heq, hlt, hbound⟩
      · left
        refine ⟨by rw [fallbackLoop]; exact heq, ?_⟩
        intro n tr hm
        rcases List.mem_cons.mp hm with h | h
        · simp at h
        · exact hb n tr h
      · right
        refine ⟨n, tr, List.mem_cons_of_mem _ hmem,
          by rw [fallbackLoop]; exact heq, hlt, ?_⟩
        intro m tr' hm
        rcases List.mem_cons.mp hm with h | h
        · simp at h
        · exact hbound m tr' h
    | some tr =>
      by_cases hlt : b.2.1 < tr.overall_confidence
      · rcases ih (name, tr.overall_confidence, tr.full_text) with
          ⟨heq, hb⟩ | ⟨n, tr', hmem, heq, hlt', hbound⟩
        · right
          refine ⟨name, tr, List.mem_cons_self _ _,
            by rw [fallbackLoop, if_pos hlt]; exact heq, hlt, ?_⟩
          intro m tr' hm
          rcases List.mem_cons.mp hm with h | h
          · obtain rfl : tr' = tr := by
              rcases Prod.mk.injEq .. ▸ h with ⟨_, h'⟩
              exact Option.some.inj h'
            exact le_refl _
          · exact hb m tr' h
        · right
          refine ⟨n, tr', List.mem_cons_of_mem _ hmem,
            by rw [fallbackLoop, if_pos hlt]; exact heq, lt_trans hlt hlt', ?_⟩
          intro m tr'' hm
          rcases List.mem_cons.mp hm with h | h
          · obtain rfl : tr'' = tr := by
              rcases Prod.mk.injEq .. ▸ h with ⟨_, h'⟩
              exact Option.some.inj h'
            exact le_of_lt hlt'
          · exact hbound m tr'' h
      · rcases ih b with ⟨heq, hb⟩ | ⟨n, tr', hmem, heq, hlt', hbound⟩
        · left
          refine ⟨by rw [fallbackLoop, if_neg hlt]; exact heq, ?_⟩
          intro m tr' hm
          rcases List.mem_cons.mp hm with h | h
          · obtain rfl : tr' = tr := by
              rcases Prod.mk.injEq .. ▸ h with ⟨_, h'⟩
              exact Option.some.inj h'
            exact not_lt.mp hlt
          · exact hb m tr' h
        · right
          refine ⟨n, tr', List.mem_cons_of_mem _ hmem,
            by rw [fallbackLoop, if_neg hlt]; exact heq, hlt', ?_⟩
          intro m tr'' hm
          rcases List.mem_cons.mp hm with h | h
          · obtain rfl : tr'' = tr := by
              rcases Prod.mk.injEq .. ▸ h with ⟨_, h'⟩
              exact Option.some.inj h'
            exact le_trans (not_lt.mp hlt) (le_of_lt hlt')
          · exact hbound m tr'' h

/-- C7 amended: when some present candidate has strictly positive
overall_confidence, _fallback_decision selects a present candidate of maximal
confidence, copies its text, sets confidence_boost to
min(confidence + 0.1, 1.0), and sets reasoning to the literal string
"Automatic fallback: selected highest confidence" (capital A, "selected
highest confidence" wording — not "automatic fallback: highest confidence
selected"). With only zero-confidence candidates the initial best survives:
chosen_source stays "deepgram" and final_text stays the segment's original
text, regardless of which candidates are present. -/
theorem C7_amended (segment : UncertainSegment)
    (candidates : List (String × Option TranscriptionResult))
    (h : ∃ n tr, (n, some tr) ∈ candidates ∧ 0 < tr.overall_confidence) :
    ∃ n tr, (n, some tr) ∈ candidates ∧
      fallbackDecision segment candidates =
        { chosen_source := some n
          final_text := some tr.full_text
          reasoning := some "Automatic fallback: selected highest confidence"
          confidence_boost := some (min (tr.overall_confidence + mkRat 1 10) 1)
          synthesis_justification := none } ∧
      ∀ m tr', (m, some tr') ∈ candidates →
        tr'.overall_confidence ≤ tr.overall_confidence := by
  rcases fallbackLoop_spec candidates ("deepgram", 0, segment.original_text) with
    ⟨_, hb⟩ | ⟨n, tr, hmem, heq, _, hbound⟩
  · obtain ⟨n, tr, hmem, hpos⟩ := h
    exact absurd (hb n tr hmem) (not_le.mpr hpos)
  · refine ⟨n, tr, hmem, ?_, hbound⟩
    simp only [fallbackDecision, heq]

/-- C7 counterexample: with a single present candidate of confidence zero the
fallback keeps the initial best instead of selecting that candidate, and its
reasoning string differs from the one the claim states. -/
theorem C7_counterexample :
    (fallbackDecision segFix [("whisper", some trZero)]).chosen_source =
        some "deepgram" ∧
    (fallbackDecision segFix [("whisper", some trZero)]).reasoning =
        some "Automatic fallback: selected highest confidence" ∧
    ("deepgram" : String) ≠ "whisper" ∧
    ("Automatic fallback: selected highest confidence" : String) ≠
      "automatic fallback: highest confidence selected" := by decide

/-- C7 witness: with the single present candidate trGood (confidence 3/5) the
fallback selects it with the stated text, boost and reasoning. -/
theorem C7_witness :
    ∃ n tr, (n, some tr) ∈ [("assemblyai", some trGood)] ∧
      fallbackDecision segFix [("assemblyai", some trGood)] =
        { chosen_source := some n
          final_text := some tr.full_text
          reasoning := some "Automatic fallback: selected highest confidence"
          confidence_boost := some (min (tr.overall_confidence + mkRat 1 10) 1)
          synthesis_justification := none } ∧
      ∀ m tr', (m, some tr') ∈ [("assemblyai", some trGood)] →
        tr'.overall_confidence ≤ tr.overall_confidence :=
  C7_amended segFix [("assemblyai", some trGood)]
    ⟨"assemblyai", trGood, by decide, by decide⟩

/-! ### C8: the fan-out schedule -/

/-- C8: under the sequential-await schedule that _get_all_transcriptions
actually implements (bare coroutines awaited one after another in a for loop,
no gather and no task creation), the providers' execution intervals never
overlap: each call ends before the next begins, so no two provider calls are
ever in flight concurrently — contradicting the documented mandatory
parallelism. -/
theorem C8_sequential_awaits (t0 : Int) (durs : List Int)
    (h : ∀ dur ∈ durs, 0 ≤ dur) :
    List.Chain' (fun a b => a.2 ≤ b.1) (seqAwaitIntervals t0 durs) ∧
    ∀ iv ∈ seqAwaitIntervals t0 durs, t0 ≤ iv.1 ∧ iv.1 ≤ iv.2 := by
  induction durs generalizing t0 with
  | nil => simp [seqAwaitIntervals]
  | cons dur rest ih =>
    have hd : 0 ≤ dur := h dur (List.mem_cons_self _ _)
    have hrest := ih (t0 + dur) (fun d hd' => h d (List.mem_cons_of_mem _ hd'))
    rw [seqAwaitIntervals]
    constructor
    · refine List.chain'_cons'.mpr ⟨?_, hrest.1⟩
      intro y hy
      exact (hrest.2 y (List.mem_of_mem_head? hy)).1
    · intro iv hiv
      rcases List.mem_cons.mp hiv with h' | h'
      · subst h'
        refine ⟨le_refl _, ?_⟩
        simp only
        linarith
      · have h2 := hrest.2 iv h'
        exact ⟨by linarith [h2.1], h2.2⟩

/-- C8 witness: a concrete sequential schedule of three provider calls. -/
theorem C8_witness :
    List.Chain' (fun a b => a.2 ≤ b.1) (seqAwaitIntervals 0 [800, 1200, 1000]) ∧
    ∀ iv ∈ seqAwaitIntervals 0 [800, 1200, 1000], (0 : Int) ≤ iv.1 ∧ iv.1 ≤ iv.2 :=
  C8_sequential_awaits 0 [800, 1200, 1000] (by decide)

/-! ### C5: synthesized replacement words -/

/-- Core facts about _create_words_from_text on a non-negative, ordered span:
one word per whitespace token, monotone non-overlapping timestamps inside
[start, end], the given confidence, no speaker, and every word's integer
duration equal to the floor of the exact rational duration/N. -/
theorem createWords_facts (text : String) (s e : Int) (conf : Rat)
    (h0 : 0 ≤ s) (hse : s ≤ e) :
    (createWordsFromText text s e conf).length = (pySplit text).length ∧
    List.Chain' (fun x y => x.end_time_ms ≤ y.start_time_ms)
      (createWordsFromText text s e conf) ∧
    ∀ w ∈ createWordsFromText text s e conf,
      w.confidence = conf ∧ w.speaker = none ∧
      s ≤ w.start_time_ms ∧ w.end_time_ms ≤ e ∧
      w.end_time_ms - w.start_time_ms =
        ⌊((e - s : Int) : Rat) / ((pySplit text).length : Rat)⌋ := by
  by_cases hN : (pySplit text).length = 0
  · simp [createWordsFromText, hN]
  · set toks := pySplit text with htoks
    set N := toks.length with hNdef
    set dq : Rat := ((e - s : Int) : Rat) / (N : Rat) with hdq
    have hNpos : 0 < N := Nat.pos_of_ne_zero hN
    have hNR : (0 : Rat) < (N : Rat) := by exact_mod_cast hNpos
    have hdqnn : 0 ≤ dq := by
      rw [hdq]
      apply div_nonneg _ (le_of_lt hNR)
      have : (0 : Int) ≤ e - s := sub_nonneg.mpr hse
      exact_mod_cast this
    have hs0 : (0 : Rat) ≤ (s : Rat) := by exact_mod_cast h0
    have hqnn : ∀ i : Nat, (0 : Rat) ≤ (s : Rat) + (i : Rat) * dq := fun i =>
      add_nonneg hs0 (mul_nonneg (Nat.cast_nonneg i) hdqnn)
    have hstart : ∀ i : Nat,
        pyInt ((s : Rat) + (i : Rat) * dq) = ⌊(s : Rat) + (i : Rat) * dq⌋ := by
      intro i
      rw [pyInt, if_pos (hqnn i)]
    have hflb : ∀ i : Nat, s ≤ ⌊(s : Rat) + (i : Rat) * dq⌋ := fun i =>
      Int.le_floor.mpr (le_add_of_nonneg_right (mul_nonneg (Nat.cast_nonneg i) hdqnn))
    have hend : ∀ i : Nat,
        pyInt ((⌊(s : Rat) + (i : Rat) * dq⌋ : Rat) + dq) =
          ⌊(s : Rat) + (i : Rat) * dq⌋ + ⌊dq⌋ := by
      intro i
      have hnn : (0 : Rat) ≤ (⌊(s : Rat) + (i : Rat) * dq⌋ : Rat) := by
        have := le_trans h0 (hflb i)
        exact_mod_cast this
      rw [pyInt, if_pos (add_nonneg hnn hdqnn), Int.floor_int_add]
    have hstep : ∀ i : Nat,
        (⌊(s : Rat) + (i : Rat) * dq⌋ : Rat) + dq ≤ (s : Rat) + ((i : Rat) + 1) * dq := by
      intro i
      have := Int.floor_le ((s : Rat) + (i : Rat) * dq)
      nlinarith
    have hmono : ∀ i : Nat,
        ⌊(s : Rat) + (i : Rat) * dq⌋ + ⌊dq⌋ ≤ ⌊(s : Rat) + ((i : Nat) + 1 : Nat) * dq⌋ := by
      intro i
      rw [← Int.floor_int_add]
      apply Int.floor_le_floor
      calc (⌊(s : Rat) + (i : Rat) * dq⌋ : Rat) + dq
          ≤ (s : Rat) + ((i : Rat) + 1) * dq := hstep i
        _ = (s : Rat) + (((i : Nat) + 1 : Nat) : Rat) * dq := by push_cast; ring
    have hub : ∀ i : Nat, i < N → ⌊(s : Rat) + (i : Rat) * dq⌋ + ⌊dq⌋ ≤ e := by
      intro i hi
      have hNd : (N : Rat) * dq = ((e - s : Int) : Rat) := by
        rw [hdq]
        field_simp
      have hile : ((i : Rat) + 1) ≤ (N : Rat) := by
        have : (i + 1 : Nat) ≤ N := Nat.succ_le_of_lt hi
        exact_mod_cast this
      have h2 : (s : Rat) + ((i : Rat) + 1) * dq ≤ (e : Rat) := by
        have hmul : ((i : Rat) + 1) * dq ≤ (N : Rat) * dq :=
          mul_le_mul_of_nonneg_right hile hdqnn
        rw [hNd] at hmul
        push_cast at hmul ⊢
        linarith
      rw [← Int.floor_int_add]
      calc ⌊(⌊(s : Rat) + (i : Rat) * dq⌋ : Rat) + dq⌋
          ≤ ⌊(e : Rat)⌋ := Int.floor_le_floor (le_trans (hstep i) h2)
        _ = e := Int.floor_intCast e
    have hres : createWordsFromText text s e conf =
        toks.enum.map (fun it =>
          let word_start := pyInt ((s : Rat) + (it.1 : Rat) * dq)
          let word_end := pyInt ((word_start : Rat) + dq)
          { text := it.2
            start_time_ms := word_start
            end_time_ms := word_end
            confidence := conf
            speaker := none }) := by
      simp only [createWordsFromText, ← htoks, ← hNdef, ← hdq]
      rw [if_neg hN]
    have hlen : (createWordsFromText text s e conf).length = N := by
      rw [hres, List.length_map, List.enum_length]
    have hget : ∀ (i : Nat) (hi : i < N)
        (hib : i < (createWordsFromText text s e conf).length),
        (createWordsFromText text s e conf)[i] =
          { text := toks.get ⟨i, hi⟩
            start_time_ms := ⌊(s : Rat) + (i : Rat) * dq⌋
            end_time_ms := ⌊(s : Rat) + (i : Rat) * dq⌋ + ⌊dq⌋
            confidence := conf
            speaker := none } := by
      intro i hi hib
      rw [List.getElem_of_eq hres]
      rw [List.getElem_map]
      rw [List.getElem_enum]
      dsimp only
      rw [hstart i, hend i]
      rw [List.get_eq_getElem]
    refine ⟨hlen, ?_, ?_⟩
    · rw [List.chain'_iff_get]
      intro i hilt
      rw [hlen] at hilt
      have hi1 : i < N := lt_of_le_of_lt (Nat.le_succ i) (by omega)
      have hi2 : i + 1 < N := by omega
      rw [List.get_eq_getElem, List.get_eq_getElem,
        hget i hi1 (by rw [hlen]; exact hi1),
        hget (i + 1) hi2 (by rw [hlen]; exact hi2)]
      exact hmono i
    · intro w hw
      rcases List.mem_iff_getElem.mp hw with ⟨i, hi, hwi⟩
      have hiN : i < N := by rw [hlen] at hi; exact hi
      rw [hget i hiN hi] at hwi
      subst hwi
      refine ⟨rfl, rfl, hflb i, hub i hiN, ?_⟩
      show ⌊(s : Rat) + (i : Rat) * dq⌋ + ⌊dq⌋ - ⌊(s : Rat) + (i : Rat) * dq⌋ =
        ⌊((e - s : Int) : Rat) / ((pySplit text).length : Rat)⌋
      rw [hdq, hNdef, htoks]
      omega

/-- C5 amended: a synthesized decision applied during merge emits exactly one
replacement word per whitespace token of final_text, each with confidence
equal to decision.confidence_boost and speaker None; zero tokens emit zero
words. The emitted durations are uniform, but each equals the integer
truncation of (end - start)/N, not the exact rational (end - start)/N: Python
int() truncation of the estimated timestamps shortens each word whenever N
does not divide the span. -/
theorem C5_amended (d : OrchestratorDecision)
    (hsyn : d.chosen_source = "synthesized")
    (h0 : 0 ≤ d.segment.start_time_ms)
    (hse : d.segment.start_time_ms ≤ d.segment.end_time_ms) :
    (replacementWords d).length = (pySplit d.final_text).length ∧
    (∀ w ∈ replacementWords d,
      w.confidence = d.confidence_boost ∧ w.speaker = none ∧
      w.end_time_ms - w.start_time_ms =
        ⌊((d.segment.end_time_ms - d.segment.start_time_ms : Int) : Rat) /
          ((pySplit d.final_text).length : Rat)⌋) ∧
    (pySplit d.final_text = [] → replacementWords d = []) := by
  have hrw : replacementWords d =
      createWordsFromText d.final_text d.segment.start_time_ms
        d.segment.end_time_ms d.confidence_boost := by
    rw [replacementWords, if_pos hsyn]
  obtain ⟨hlen, _, hmem⟩ :=
    createWords_facts d.final_text d.segment.start_time_ms d.segment.end_time_ms
      d.confidence_boost h0 hse
  rw [hrw]
  refine ⟨hlen, fun w hw => ?_, fun hnil => ?_⟩
  · obtain ⟨hc, hs, _, _, hd⟩ := hmem w hw
    exact ⟨hc, hs, hd⟩
  · simp [createWordsFromText, hnil]

/-- C5 counterexample: merging the synthesized decision decSynth (three
tokens over a 10 ms span) emits three words, and none of them has duration
equal to the exact rational (end - start)/N = 10/3; each integer duration is
its floor, 3. -/
theorem C5_counterexample :
    (mergeDecisions prSynth [decSynth]).words.length = 3 ∧
    ∀ w ∈ (mergeDecisions prSynth [decSynth]).words,
      ((w.end_time_ms - w.start_time_ms : Int) : Rat) ≠
        ((decSynth.segment.end_time_ms - decSynth.segment.start_time_ms : Int) : Rat) /
          ((pySplit decSynth.final_text).length : Rat) := by
  have hw : (mergeDecisions prSynth [decSynth]).words =
      createWordsFromText "blood pressure high" 0 10 (mkRat 7 10) := by
    simp [mergeDecisions, mergeLoop, replacementWords, prSynth, decSynth]
  obtain ⟨hlen, _, hmem⟩ :=
    createWords_facts "blood pressure high" 0 10 (mkRat 7 10)
      (by norm_num) (by norm_num)
  have htok : pySplit "blood pressure high" = ["blood", "pressure", "high"] := by
    decide
  constructor
  · rw [hw, hlen, htok]
    rfl
  · intro w hwmem
    rw [hw] at hwmem
    obtain ⟨_, _, _, _, hd⟩ := hmem w hwmem
    rw [hd]
    have h3 : ((pySplit "blood pressure high").length : Rat) = 3 := by
      rw [htok]; norm_num
    rw [h3]
    have hfloor : ⌊((10 - 0 : Int) : Rat) / (3 : Rat)⌋ = 3 := by norm_num
    rw [hfloor]
    have hdec : decSynth.segment.end_time_ms = 10 := rfl
    have hdec2 : decSynth.segment.start_time_ms = 0 := rfl
    have hdec3 : decSynth.final_text = "blood pressure high" := rfl
    rw [hdec, hdec2, hdec3, htok]
    norm_num

/-- C5 witness: decSynth satisfies the amended description. -/
theorem C5_witness :
    (replacementWords decSynth).length = (pySplit decSynth.final_text).length ∧
    (∀ w ∈ replacementWords decSynth,
      w.confidence = decSynth.confidence_boost ∧ w.speaker = none ∧
      w.end_time_ms - w.start_time_ms =
        ⌊((decSynth.segment.end_time_ms - decSynth.segment.start_time_ms : Int) : Rat) /
          ((pySplit decSynth.final_text).length : Rat)⌋) ∧
    (pySplit decSynth.final_text = [] → replacementWords decSynth = []) :=
  C5_amended decSynth (by decide) (by decide) (by decide)

/-! ### C6: merging adjacent segments -/

/-- C6: in the walk of _merge_adjacent_segments, two successive segments
separated by a gap of at most 1000 ms are replaced by their combination,
whose word list is the concatenation, whose bounds are the earlier start and
later end, whose average confidence is the count-weighted mean (stated
multiplicatively: total word count times the new average equals the sum of
each segment's average times its count), and whose contexts come from the
earlier and later segment respectively; with a larger gap both segments are
kept and the walk moves on. -/
theorem C6_merge_step (last seg : UncertainSegment) (rest : List UncertainSegment)
    (hstart : last.start_time_ms ≤ seg.start_time_ms)
    (hend : last.end_time_ms ≤ seg.end_time_ms)
    (hn1 : last.original_words ≠ []) (hn2 : seg.original_words ≠ []) :
    (seg.start_time_ms - last.end_time_ms ≤ 1000 →
      mergeAux 1000 last (seg :: rest) =
        mergeAux 1000 (combineSegments last seg) rest ∧
      (combineSegments last seg).original_words =
        last.original_words ++ seg.original_words ∧
      (combineSegments last seg).start_time_ms =
        min last.start_time_ms seg.start_time_ms ∧
      (combineSegments last seg).end_time_ms =
        max last.end_time_ms seg.end_time_ms ∧
      (combineSegments last seg).average_confidence *
          ((last.original_words.length : Rat) + (seg.original_words.length : Rat)) =
        last.average_confidence * (last.original_words.length : Rat) +
          seg.average_confidence * (seg.original_words.length : Rat) ∧
      (combineSegments last seg).context_before = last.context_before ∧
      (combineSegments last seg).context_after = seg.context_after) ∧
    (1000 < seg.start_time_ms - last.end_time_ms →
      mergeAux 1000 last (seg :: rest) = last :: mergeAux 1000 seg rest) := by
  constructor
  · intro hgap
    refine ⟨by simp only [mergeAux, if_pos hgap], rfl, ?_, ?_, ?_, rfl, rfl⟩
    · simp [combineSegments, min_eq_left hstart]
    · simp [combineSegments, max_eq_right hend]
    · have h1 : (0 : Rat) < (last.original_words.length : Rat) := by
        exact_mod_cast List.length_pos.mpr hn1
      have h2 : (0 : Rat) ≤ (seg.original_words.length : Rat) := by positivity
      have hlen : (last.original_words.length : Rat) +
          (seg.original_words.length : Rat) ≠ 0 := by linarith
      simp only [combineSegments, List.length_append]
      push_cast
      field_simp
  · intro hgap
    simp only [mergeAux, if_neg (not_le.mpr hgap)]

/-- C6 witness: segA and segB, 600 ms apart, merge into one segment with the
stated fields; the same theorem's second clause covers the larger-gap case. -/
theorem C6_witness :
    (segB.start_time_ms - segA.end_time_ms ≤ 1000 →
      mergeAux 1000 segA (segB :: []) =
        mergeAux 1000 (combineSegments segA segB) [] ∧
      (combineSegments segA segB).original_words =
        segA.original_words ++ segB.original_words ∧
      (combineSegments segA segB).start_time_ms =
        min segA.start_time_ms segB.start_time_ms ∧
      (combineSegments segA segB).end_time_ms =
        max segA.end_time_ms segB.end_time_ms ∧
      (combineSegments segA segB).average_confidence *
          ((segA.original_words.length : Rat) + (segB.original_words.length : Rat)) =
        segA.average_confidence * (segA.original_words.length : Rat) +
          segB.average_confidence * (segB.original_words.length : Rat) ∧
      (combineSegments segA segB).context_before = segA.context_before ∧
      (combineSegments segA segB).context_after = segB.context_after) ∧
    (1000 < segB.start_time_ms - segA.end_time_ms →
      mergeAux 1000 segA (segB :: []) = segA :: mergeAux 1000 segB []) :=
  C6_merge_step segA segB [] (by decide) (by decide) (by decide) (by decide)

/-! ### Analyzer lemmas shared by C2 and C10 -/

/-- In a chained list whose elements are well-formed intervals, every element
of the tail starts at or after the head's end. -/
theorem chain_tail_lb {α : Type} (fst lst : α → Int) :
    ∀ {x : α} {l : List α},
      List.Chain' (fun a b => lst a ≤ fst b) (x :: l) →
      (∀ a ∈ x :: l, fst a ≤ lst a) →
      ∀ y ∈ l, lst x ≤ fst y := by
  intro x l
  induction l generalizing x with
  | nil =>
    intro _ _ y hy
    cases hy
  | cons z t ih =>
    intro h hwf y hy
    have hxz : lst x ≤ fst z := (List.chain'_cons.mp h).1
    rcases List.mem_cons.mp hy with rfl | hy'
    · exact hxz
    · have hz := ih (List.chain'_cons.mp h).2
        (fun a ha => hwf a (List.mem_cons_of_mem _ ha)) y hy'
      have hzwf : fst z ≤ lst z := hwf z (by simp)
      linarith

/-- On a non-empty list, getLastD does not depend on the default. -/
theorem getLastD_irrel {α : Type} (x : α) (l : List α) (d d' : α) :
    (x :: l).getLastD d = (x :: l).getLastD d' := by
  rw [List.getLastD_eq_getLast?, List.getLastD_eq_getLast?]
  cases hq : (x :: l).getLast? with
  | none => simp [List.getLast?_eq_none_iff] at hq
  | some q => rfl

/-- The head of a chained, well-formed word list starts no later than the end
of its last element. -/
theorem chain_head_getLastD {w0 : Word} :
    ∀ {rest : List Word},
      List.Chain' wordLe (w0 :: rest) →
      (∀ w ∈ w0 :: rest, w.start_time_ms ≤ w.end_time_ms) →
      w0.start_time_ms ≤ ((w0 :: rest).getLastD w0).end_time_ms := by
  intro rest
  induction rest generalizing w0 with
  | nil =>
    intro _ hwf
    exact hwf w0 (by simp)
  | cons w1 t ih =>
    intro h hwf
    have h1 : w0.start_time_ms ≤ w1.start_time_ms := by
      have := (List.chain'_cons.mp h).1
      have := hwf w0 (by simp)
      simp only [wordLe] at *
      linarith
    have h2 := ih (List.chain'_cons.mp h).2
      (fun w hw => hwf w (List.mem_cons_of_mem _ hw))
    calc w0.start_time_ms ≤ w1.start_time_ms := h1
      _ ≤ ((w1 :: t).getLastD w1).end_time_ms := h2
      _ = ((w0 :: w1 :: t).getLastD w0).end_time_ms := by
          have e1 : (w0 :: w1 :: t).getLastD w0 = (w1 :: t).getLastD w0 :=
            List.getLastD_cons _ _ _
          have e2 : (w1 :: t).getLastD w0 = (w1 :: t).getLastD w1 :=
            getLastD_irrel _ _ _ _
          rw [e1, e2]

/-- What a successful _create_segment returns: the group itself with its
first word's start, last word's end, its mean confidence, and a duration at
least the configured minimum. -/
theorem createSegment_some {a : ConfidenceAnalyzer} {tr : TranscriptionResult} :
    ∀ {ws : List Word} {s : UncertainSegment},
      createSegment a ws tr = some s →
      ∃ (w0 : Word) (rest : List Word), ws = w0 :: rest ∧
        s.start_time_ms = w0.start_time_ms ∧
        s.end_time_ms = (ws.getLastD w0).end_time_ms ∧
        s.original_words = ws ∧
        s.average_confidence = avgConf ws ∧
        a.min_segment_duration_ms ≤ s.end_time_ms - s.start_time_ms := by
  intro ws s h
  cases ws with
  | nil => simp [createSegment] at h
  | cons w0 rest =>
    simp only [createSegment] at h
    by_cases hd : ((w0 :: rest).getLastD w0).end_time_ms - w0.start_time_ms <
        a.min_segment_duration_ms
    · rw [if_pos hd] at h
      cases h
    · rw [if_neg hd] at h
      obtain rfl := Option.some.inj h
      exact ⟨w0, rest, rfl, rfl, rfl, rfl, rfl, by simpa using not_lt.mp hd⟩

/-- Every group the walk of identify_uncertain_segments materializes meets
the minimum duration. -/
theorem identifyLoop_min (a : ConfidenceAnalyzer) (tr : TranscriptionResult) :
    ∀ (ws cur : List Word), ∀ s ∈ identifyLoop a tr ws cur,
      a.min_segment_duration_ms ≤ s.end_time_ms - s.start_time_ms := by
  intro ws
  induction ws with
  | nil =>
    intro cur s hs
    simp only [identifyLoop] at hs
    cases hcr : createSegment a cur tr with
    | none => rw [hcr] at hs; cases hs
    | some s0 =>
      rw [hcr] at hs
      obtain rfl : s = s0 := by simpa using hs
      obtain ⟨_, _, _, _, _, _, _, h⟩ := createSegment_some hcr
      exact h
  | cons w rest ih =>
    intro cur s hs
    simp only [identifyLoop] at hs
    by_cases hlow : w.confidence < a.confidence_threshold
    · rw [if_pos hlow] at hs
      exact ih _ s hs
    · rw [if_neg hlow] at hs
      rcases List.mem_append.mp hs with h | h
      · cases hcr : createSegment a cur tr with
        | none => rw [hcr] at h; cases h
        | some s0 =>
          rw [hcr] at h
          obtain rfl : s = s0 := by simpa using h
          obtain ⟨_, _, _, _, _, _, _, hm⟩ := createSegment_some hcr
          exact hm
      · exact ih [] s h

/-- Every segment the walk materializes starts at or after any lower bound on
the starts of the words still in play. -/
theorem identifyLoop_start_lb (a : ConfidenceAnalyzer) (tr : TranscriptionResult)
    (b : Int) :
    ∀ (ws cur : List Word),
      (∀ w ∈ cur ++ ws, b ≤ w.start_time_ms) →
      ∀ s ∈ identifyLoop a tr ws cur, b ≤ s.start_time_ms := by
  intro ws
  induction ws with
  | nil =>
    intro cur hb s hs
    simp only [identifyLoop] at hs
    cases hcr : createSegment a cur tr with
    | none => rw [hcr] at hs; cases hs
    | some s0 =>
      rw [hcr] at hs
      obtain rfl : s = s0 := by simpa using hs
      obtain ⟨w0, r, rfl, hstart, _, _, _, _⟩ := createSegment_some hcr
      rw [hstart]
      exact hb w0 (by simp)
  | cons w rest ih =>
    intro cur hb s hs
    simp only [identifyLoop] at hs
    by_cases hlow : w.confidence < a.confidence_threshold
    · rw [if_pos hlow] at hs
      refine ih (cur ++ [w]) ?_ s hs
      intro x hx
      apply hb
      rw [List.append_assoc] at hx
      simpa using hx
    · rw [if_neg hlow] at hs
      rcases List.mem_append.mp hs with h | h
      · cases hcr : createSegment a cur tr with
        | none => rw [hcr] at h; cases h
        | some s0 =>
          rw [hcr] at h
          obtain rfl : s = s0 := by simpa using h
          obtain ⟨w0, r, rfl, hstart, _, _, _, _⟩ := createSegment_some hcr
          rw [hstart]
          exact hb w0 (by simp)
      · refine ih [] ?_ s h
        intro x hx
        exact hb x (by simp only [List.nil_append] at hx; simp [hx])

/-- Every segment the walk materializes is a well-formed interval. -/
theorem identifyLoop_wf (a : ConfidenceAnalyzer) (tr : TranscriptionResult) :
    ∀ (ws cur : List Word),
      List.Chain' wordLe (cur ++ ws) →
      (∀ w ∈ cur ++ ws, w.start_time_ms ≤ w.end_time_ms) →
      ∀ s ∈ identifyLoop a tr ws cur,
        s.start_time_ms ≤ s.end_time_ms := by
  intro ws
  induction ws with
  | nil =>
    intro cur hch hwf s hs
    simp only [identifyLoop] at hs
    cases hcr : createSegment a cur tr with
    | none => rw [hcr] at hs; cases hs
    | some s0 =>
      rw [hcr] at hs
      obtain rfl : s = s0 := by simpa using hs
      obtain ⟨w0, r, hcur, hstart, hend, _, _, _⟩ := createSegment_some hcr
      rw [hstart, hend, hcur]
      rw [hcur, List.append_nil] at hch hwf
      exact chain_head_getLastD hch hwf
  | cons w rest ih =>
    intro cur hch hwf s hs
    simp only [identifyLoop] at hs
    by_cases hlow : w.confidence < a.confidence_threshold
    · rw [if_pos hlow] at hs
      refine ih (cur ++ [w]) ?_ ?_ s hs
      · rw [List.append_assoc]
        simpa using hch
      · intro x hx
        apply hwf
        rw [List.append_assoc] at hx
        simpa using hx
    · rw [if_neg hlow] at hs
      have hsuf : (w :: rest) <:+ cur ++ w :: rest := ⟨cur, rfl⟩
      rcases List.mem_append.mp hs with h | h
      · cases hcr : createSegment a cur tr with
        | none => rw [hcr] at h; cases h
        | some s0 =>
          rw [hcr] at h
          obtain rfl : s = s0 := by simpa using h
          obtain ⟨w0, r, hcur, hstart, hend, _, _, _⟩ := createSegment_some hcr
          rw [hstart, hend, hcur]
          have hpre : (w0 :: r) <+: cur ++ w :: rest := by
            rw [← hcur]
            exact ⟨w :: rest, rfl⟩
          have hch' : List.Chain' wordLe (w0 :: r) := hch.prefix hpre
          exact chain_head_getLastD hch'
            (fun x hx => hwf x (hpre.sublist.subset hx))
      · refine ih [] ?_ ?_ s h
        · exact (hch.suffix hsuf).tail
        · intro x hx
          simp only [List.nil_append] at hx
          exact hwf x (hsuf.sublist.subset (List.mem_cons_of_mem _ hx))

/-- The segments the walk materializes are ordered: each ends at or before
the next begins. -/
theorem identifyLoop_chain (a : ConfidenceAnalyzer) (tr : TranscriptionResult) :
    ∀ (ws cur : List Word),
      List.Chain' wordLe (cur ++ ws) →
      (∀ w ∈ cur ++ ws, w.start_time_ms ≤ w.end_time_ms) →
      List.Chain' (fun s1 s2 => s1.end_time_ms ≤ s2.start_time_ms)
        (identifyLoop a tr ws cur) := by
  intro ws
  induction ws with
  | nil =>
    intro cur _ _
    simp only [identifyLoop]
    cases createSegment a cur tr with
    | none => simp
    | some s0 => simp
  | cons w rest ih =>
    intro cur hch hwf
    simp only [identifyLoop]
    by_cases hlow : w.confidence < a.confidence_threshold
    · rw [if_pos hlow]
      refine ih (cur ++ [w]) ?_ ?_
      · rw [List.append_assoc]
        simpa using hch
      · intro x hx
        apply hwf
        rw [List.append_assoc] at hx
        simpa using hx
    · rw [if_neg hlow]
      have hsuf : (w :: rest) <:+ cur ++ w :: rest := ⟨cur, rfl⟩
      have hchwr : List.Chain' wordLe (w :: rest) := hch.suffix hsuf
      have hwfwr : ∀ x ∈ w :: rest, x.start_time_ms ≤ x.end_time_ms :=
        fun x hx => hwf x (hsuf.sublist.subset hx)
      have hrest_chain : List.Chain' (fun s1 s2 => s1.end_time_ms ≤ s2.start_time_ms)
          (identifyLoop a tr rest []) := by
        refine ih [] ?_ ?_
        · exact hchwr.tail
        · intro x hx
          simp only [List.nil_append] at hx
          exact hwfwr x (List.mem_cons_of_mem _ hx)
      cases hcr : createSegment a cur tr with
      | none => simpa using hrest_chain
      | some s0 =>
        simp only [List.singleton_append]
        refine List.chain'_cons'.mpr ⟨?_, hrest_chain⟩
        intro s1 hs1
        have hs1mem : s1 ∈ identifyLoop a tr rest [] := List.mem_of_mem_head? hs1
        -- the end of s0 is the end of the last word of cur, which precedes
        -- every word of rest
        obtain ⟨w0, r, hcur, _, hend, _, _, _⟩ := createSegment_some hcr
        refine identifyLoop_start_lb a tr s0.end_time_ms rest [] ?_ s1 hs1mem
        intro x hx
        simp only [List.nil_append] at hx
        -- s0.end = last of cur; last of cur precedes w; w precedes rest
        have hlastw : s0.end_time_ms ≤ w.start_time_ms := by
          rw [hend, hcur]
          rcases List.chain'_append.mp (by rw [hcur] at hch; exact hch) with
            ⟨_, _, hbound⟩
          have hlast : ((w0 :: r).getLastD w0) ∈ (w0 :: r).getLast? := by
            rw [List.getLastD_eq_getLast?]
            cases hq : (w0 :: r).getLast? with
            | none => simp [List.getLast?_eq_none_iff] at hq
            | some q => simp
          exact hbound _ hlast w (by simp)
        have hwx : w.end_time_ms ≤ x.start_time_ms :=
          chain_tail_lb (fun y : Word => y.start_time_ms) (fun y : Word => y.end_time_ms)
            hchwr hwfwr x hx
        have hwwf : w.start_time_ms ≤ w.end_time_ms := hwfwr w (by simp)
        linarith

/-- mergeAux preserves a lower bound on segment durations for ordered,
well-formed input segments. -/
theorem mergeAux_min (g m : Int) :
    ∀ (rest : List UncertainSegment) (last : UncertainSegment),
      m ≤ last.end_time_ms - last.start_time_ms →
      (∀ s ∈ rest, m ≤ s.end_time_ms - s.start_time_ms) →
      List.Chain' (fun s1 s2 => s1.end_time_ms ≤ s2.start_time_ms) (last :: rest) →
      (∀ s ∈ last :: rest, s.start_time_ms ≤ s.end_time_ms) →
      ∀ s ∈ mergeAux g last rest, m ≤ s.end_time_ms - s.start_time_ms := by
  intro rest
  induction rest with
  | nil =>
    intro last hlast _ _ _ s hs
    obtain rfl : s = last := by simpa [mergeAux] using hs
    exact hlast
  | cons seg rest' ih =>
    intro last hlast hrest hch hwf s hs
    simp only [mergeAux] at hs
    have hls : last.end_time_ms ≤ seg.start_time_ms :=
      (List.chain'_cons.mp hch).1
    have hsegwf : seg.start_time_ms ≤ seg.end_time_ms := hwf seg (by simp)
    by_cases hgap : seg.start_time_ms - last.end_time_ms ≤ g
    · rw [if_pos hgap] at hs
      refine ih (combineSegments last seg) ?_ ?_ ?_ ?_ s hs
      · show m ≤ seg.end_time_ms - last.start_time_ms
        have : m ≤ last.end_time_ms - last.start_time_ms := hlast
        linarith
      · exact fun t ht => hrest t (List.mem_cons_of_mem _ ht)
      · refine List.chain'_cons'.mpr ⟨?_, (List.chain'_cons.mp hch).2.tail⟩
        intro t ht
        have := List.chain'_cons'.mp (List.chain'_cons.mp hch).2
        exact this.1 t ht
      · intro t ht
        rcases List.mem_cons.mp ht with rfl | ht'
        · show last.start_time_ms ≤ seg.end_time_ms
          have := hwf last (by simp)
          linarith
        · exact hwf t (List.mem_cons_of_mem _ (List.mem_cons_of_mem _ ht'))
    · rw [if_neg hgap] at hs
      rcases List.mem_cons.mp hs with rfl | hs'
      · exact hlast
      · refine ih seg (hrest seg (by simp))
          (fun t ht => hrest t (List.mem_cons_of_mem _ ht))
          (List.chain'_cons.mp hch).2
          (fun t ht => hwf t (List.mem_cons_of_mem _ ht)) s hs'

/-- In the chunking loop of _split_long_segments, every emitted chunk except
possibly the final leftover has duration at least the maximum. -/
theorem splitChunks_dropLast_max (a : ConfidenceAnalyzer)
    (parent : UncertainSegment) :
    ∀ (rest : List Word) (cs : Int) (acc : List Word),
      ∀ s ∈ splitChunks a parent cs acc rest,
        a.max_segment_duration_ms ≤ s.end_time_ms - s.start_time_ms ∨
          (splitChunks a parent cs acc rest).getLast? = some s := by
  intro rest
  induction rest with
  | nil =>
    intro cs acc s hs
    cases acc with
    | nil => cases hs
    | cons c0 cw =>
      right
      obtain rfl : s = _ := by simpa [splitChunks] using hs
      rfl
  | cons w rest' ih =>
    intro cs acc s hs
    simp only [splitChunks] at hs ⊢
    by_cases hcond : a.max_segment_duration_ms ≤ w.end_time_ms - cs
    · rw [if_pos hcond] at hs ⊢
      rcases List.mem_cons.mp hs with rfl | hs'
      · left
        exact hcond
      · rcases ih w.end_time_ms [] s hs' with h | h
        · left
          exact h
        · right
          have hne : splitChunks a parent w.end_time_ms [] rest' ≠ [] := by
            intro he
            rw [he] at hs'
            cases hs'
          rcases List.exists_cons_of_ne_nil hne with ⟨q, qt, hq⟩
          rw [hq] at h ⊢
          rw [List.getLast?_cons_cons]
          exact h
    · rw [if_neg hcond] at hs ⊢
      exact ih cs (acc ++ [w]) s hs

/-- C2 amended: before splitting, every segment the analyzer emits (groups
that survive materialization, then adjacent merging) has duration at least
min_segment_duration_ms; splitting a long segment, however, emits each chunk
at the first word whose end reaches max_segment_duration_ms past the chunk
start, so every chunk except possibly the final leftover has duration at
least max — the claimed upper bound duration ≤ max does not hold (a chunk
overshoots max by however far its last word reaches), and the final leftover
chunk (the only one shorter than max) may also undershoot min. -/
theorem C2_amended :
    (∀ (a : ConfidenceAnalyzer) (tr : TranscriptionResult),
      List.Chain' wordLe tr.words →
      (∀ w ∈ tr.words, w.start_time_ms ≤ w.end_time_ms) →
      ∀ s ∈ mergeAdjacentSegments 1000 (identifyLoop a tr tr.words []),
        a.min_segment_duration_ms ≤ s.end_time_ms - s.start_time_ms) ∧
    (∀ (a : ConfidenceAnalyzer) (parent : UncertainSegment) (cs : Int)
        (ws : List Word),
      ∀ s ∈ splitChunks a parent cs [] ws,
        a.max_segment_duration_ms ≤ s.end_time_ms - s.start_time_ms ∨
          (splitChunks a parent cs [] ws).getLast? = some s) := by
  constructor
  · intro a tr hch hwf s hs
    have hch' : List.Chain' wordLe ([] ++ tr.words) := by simpa using hch
    have hwf' : ∀ w ∈ [] ++ tr.words, w.start_time_ms ≤ w.end_time_ms := by
      simpa using hwf
    cases hout : identifyLoop a tr tr.words [] with
    | nil =>
      rw [hout] at hs
      simp only [mergeAdjacentSegments] at hs
      cases hs
    | cons s0 srest =>
      rw [hout] at hs
      simp only [mergeAdjacentSegments] at hs
      refine mergeAux_min 1000 a.min_segment_duration_ms srest s0 ?_ ?_ ?_ ?_ s hs
      · have := identifyLoop_min a tr tr.words [] s0 (by rw [hout]; simp)
        exact this
      · intro t ht
        exact identifyLoop_min a tr tr.words [] t (by rw [hout]; simp [ht])
      · have := identifyLoop_chain a tr tr.words [] hch' hwf'
        rw [hout] at this
        exact this
      · intro t ht
        refine identifyLoop_wf a tr tr.words [] hch' hwf' t ?_
        rw [hout]
        exact ht
  · exact fun a parent cs ws => splitChunks_dropLast_max a parent ws cs []

/-- C2 counterexample: on the concrete transcript trSplit (one low-confidence
group of duration 10200 ms, words of 9999, 2 and 199 ms) the analyzer with
its default configuration emits a chunk of duration 10001 ms, exceeding
max_segment_duration_ms = 10000, and a trailing chunk of duration 199 ms,
under min_segment_duration_ms = 500. -/
theorem C2_counterexample :
    ((identifyUncertainSegments defaultAnalyzer trSplit).map
      (fun s => s.end_time_ms - s.start_time_ms)) = [10001, 199] ∧
    ¬ ((10001 : Int) ≤ defaultAnalyzer.max_segment_duration_ms) ∧
    ¬ (defaultAnalyzer.min_segment_duration_ms ≤ (199 : Int)) := by
  refine ⟨?_, by decide, by decide⟩
  decide

/-- C2 witness: the amended bounds at the concrete transcript trSplit and its
split chunks. -/
theorem C2_witness :
    (∀ s ∈ mergeAdjacentSegments 1000
        (identifyLoop defaultAnalyzer trSplit trSplit.words []),
      defaultAnalyzer.min_segment_duration_ms ≤ s.end_time_ms - s.start_time_ms) ∧
    (∀ s ∈ splitChunks defaultAnalyzer segFix 0 [] trSplit.words,
      defaultAnalyzer.max_segment_duration_ms ≤ s.end_time_ms - s.start_time_ms ∨
        (splitChunks defaultAnalyzer segFix 0 [] trSplit.words).getLast? = some s) :=
  ⟨C2_amended.1 defaultAnalyzer trSplit (chain'_iff_chainCheck.mpr (by decide))
      (by decide),
    C2_amended.2 defaultAnalyzer segFix 0 trSplit.words⟩

/-! ### C10: emitted averages stay below the threshold -/

/-- Sum of a non-empty list of rationals all below t is below t times the
length. -/
theorem rat_sum_lt {t : Rat} :
    ∀ {l : List Rat}, l ≠ [] → (∀ x ∈ l, x < t) →
      l.sum < t * (l.length : Rat) := by
  intro l
  induction l with
  | nil => intro h; exact absurd rfl h
  | cons x tail ih =>
    intro _ h
    cases tail with
    | nil =>
      have := h x (by simp)
      simpa using this
    | cons y t' =>
      have h1 := h x (by simp)
      have h2 := ih (by simp) (fun z hz => h z (List.mem_cons_of_mem _ hz))
      simp only [List.sum_cons, List.length_cons] at *
      push_cast at *
      linarith

/-- Sum of a list of rationals all at most t is at most t times the length. -/
theorem rat_sum_le {t : Rat} :
    ∀ {l : List Rat}, (∀ x ∈ l, x ≤ t) → l.sum ≤ t * (l.length : Rat) := by
  intro l
  induction l with
  | nil => intro _; simp
  | cons x tail ih =>
    intro h
    have h1 := h x (by simp)
    have h2 := ih (fun z hz => h z (List.mem_cons_of_mem _ hz))
    simp only [List.sum_cons, List.length_cons]
    push_cast
    linarith

/-- The mean of a non-empty group of confidences all strictly below t is
strictly below t. -/
theorem avgConf_lt {t : Rat} {ws : List Word} (hne : ws ≠ [])
    (h : ∀ w ∈ ws, w.confidence < t) : avgConf ws < t := by
  have hlen : (0 : Rat) < (ws.length : Rat) := by
    exact_mod_cast List.length_pos.mpr hne
  rw [avgConf, div_lt_iff₀ hlen]
  have := rat_sum_lt (t := t) (l := ws.map (·.confidence))
    (by simpa using hne) (by
      intro x hx
      rcases List.mem_map.mp hx with ⟨w, hw, rfl⟩
      exact h w hw)
  simpa [mul_comm] using this

/-- The mean of a non-empty group of confidences in the unit interval lies in
the unit interval. -/
theorem avgConf_bounds {ws : List Word} (hne : ws ≠ [])
    (h : ∀ w ∈ ws, 0 ≤ w.confidence ∧ w.confidence ≤ 1) :
    0 ≤ avgConf ws ∧ avgConf ws ≤ 1 := by
  have hlen : (0 : Rat) < (ws.length : Rat) := by
    exact_mod_cast List.length_pos.mpr hne
  constructor
  · apply div_nonneg _ (le_of_lt hlen)
    apply List.sum_nonneg
    intro x hx
    rcases List.mem_map.mp hx with ⟨w, hw, rfl⟩
    exact (h w hw).1
  · rw [avgConf, div_le_one hlen]
    have := rat_sum_le (t := 1) (l := ws.map (·.confidence)) (by
      intro x hx
      rcases List.mem_map.mp hx with ⟨w, hw, rfl⟩
      exact (h w hw).2)
    simpa using this

/-- Every group the walk materializes satisfies the mean invariant, given the
accumulated words are low-confidence and valid and the remaining words are
valid. -/
theorem identifyLoop_inv (a : ConfidenceAnalyzer) (tr : TranscriptionResult) :
    ∀ (ws cur : List Word),
      (∀ w ∈ cur, w.confidence < a.confidence_threshold ∧
        0 ≤ w.confidence ∧ w.confidence ≤ 1) →
      (∀ w ∈ ws, 0 ≤ w.confidence ∧ w.confidence ≤ 1) →
      ∀ s ∈ identifyLoop a tr ws cur, SegMeanInv a s := by
  intro ws
  induction ws with
  | nil =>
    intro cur hcur _ s hs
    simp only [identifyLoop] at hs
    cases hcr : createSegment a cur tr with
    | none => rw [hcr] at hs; cases hs
    | some s0 =>
      rw [hcr] at hs
      obtain rfl : s = s0 := by simpa using hs
      obtain ⟨w0, r, hcureq, _, _, hwords, havg, _⟩ := createSegment_some hcr
      refine ⟨by rw [hwords, hcureq]; simp, by rw [hwords]; exact havg, ?_⟩
      intro w hw
      rw [hwords] at hw
      exact hcur w hw
  | cons w rest ih =>
    intro cur hcur hws s hs
    simp only [identifyLoop] at hs
    by_cases hlow : w.confidence < a.confidence_threshold
    · rw [if_pos hlow] at hs
      have hcur' : ∀ y ∈ cur ++ [w], y.confidence < a.confidence_threshold ∧
          0 ≤ y.confidence ∧ y.confidence ≤ 1 := by
        intro y hy
        rcases List.mem_append.mp hy with h | h
        · exact hcur y h
        · obtain rfl : y = w := by simpa using h
          exact ⟨hlow, hws y (by simp)⟩
      exact ih (cur ++ [w]) hcur'
        (fun y hy => hws y (List.mem_cons_of_mem _ hy)) s hs
    · rw [if_neg hlow] at hs
      rcases List.mem_append.mp hs with h | h
      · cases hcr : createSegment a cur tr with
        | none => rw [hcr] at h; cases h
        | some s0 =>
          rw [hcr] at h
          obtain rfl : s = s0 := by simpa using h
          obtain ⟨w0, r, hcureq, _, _, hwords, havg, _⟩ := createSegment_some hcr
          refine ⟨by rw [hwords, hcureq]; simp, by rw [hwords]; exact havg, ?_⟩
          intro x hx
          rw [hwords] at hx
          exact hcur x hx
      · exact ih [] (by simp) (fun x hx => hws x (List.mem_cons_of_mem _ hx)) s h

/-- Combining two segments that satisfy the mean invariant yields a segment
that satisfies it: the count-weighted mean of two means is the mean of the
concatenation. -/
theorem combineSegments_inv {a : ConfidenceAnalyzer} {last seg : UncertainSegment}
    (h1 : SegMeanInv a last) (h2 : SegMeanInv a seg) :
    SegMeanInv a (combineSegments last seg) := by
  obtain ⟨hne1, havg1, hlow1⟩ := h1
  obtain ⟨hne2, havg2, hlow2⟩ := h2
  have hn1 : ((last.original_words.length : Rat)) ≠ 0 := by
    have := List.length_pos.mpr hne1
    positivity
  have hn2 : ((seg.original_words.length : Rat)) ≠ 0 := by
    have := List.length_pos.mpr hne2
    positivity
  refine ⟨by simp [combineSegments, hne1], ?_, ?_⟩
  · show (last.average_confidence * (last.original_words.length : Rat) +
        seg.average_confidence * (seg.original_words.length : Rat)) /
        (((last.original_words ++ seg.original_words).length : Rat)) =
      avgConf (last.original_words ++ seg.original_words)
    rw [havg1, havg2, avgConf, avgConf, avgConf]
    rw [div_mul_cancel₀ _ hn1, div_mul_cancel₀ _ hn2]
    rw [List.map_append, List.sum_append]
  · intro w hw
    rcases List.mem_append.mp hw with h | h
    · exact hlow1 w h
    · exact hlow2 w h

/-- The adjacent-merge walk preserves the mean invariant. -/
theorem mergeAux_inv {a : ConfidenceAnalyzer} (g : Int) :
    ∀ (rest : List UncertainSegment) (last : UncertainSegment),
      SegMeanInv a last → (∀ s ∈ rest, SegMeanInv a s) →
      ∀ s ∈ mergeAux g last rest, SegMeanInv a s := by
  intro rest
  induction rest with
  | nil =>
    intro last hlast _ s hs
    obtain rfl : s = last := by simpa [mergeAux] using hs
    exact hlast
  | cons seg rest' ih =>
    intro last hlast hrest s hs
    simp only [mergeAux] at hs
    by_cases hgap : seg.start_time_ms - last.end_time_ms ≤ g
    · rw [if_pos hgap] at hs
      exact ih (combineSegments last seg)
        (combineSegments_inv hlast (hrest seg (by simp)))
        (fun t ht => hrest t (List.mem_cons_of_mem _ ht)) s hs
    · rw [if_neg hgap] at hs
      rcases List.mem_cons.mp hs with rfl | hs'
      · exact hlast
      · exact ih seg (hrest seg (by simp))
          (fun t ht => hrest t (List.mem_cons_of_mem _ ht)) s hs'

/-- The chunking loop preserves the mean invariant: each chunk's average is
computed afresh as the mean of its own (non-empty) word list, drawn from the
parent's words. -/
theorem splitChunks_inv (a : ConfidenceAnalyzer) (parent : UncertainSegment) :
    ∀ (rest : List Word) (cs : Int) (acc : List Word),
      (∀ w ∈ acc ++ rest, w.confidence < a.confidence_threshold ∧
        0 ≤ w.confidence ∧ w.confidence ≤ 1) →
      ∀ s ∈ splitChunks a parent cs acc rest, SegMeanInv a s := by
  intro rest
  induction rest with
  | nil =>
    intro cs acc hacc s hs
    cases acc with
    | nil => cases hs
    | cons c0 cw =>
      obtain rfl : s = _ := by simpa [splitChunks] using hs
      refine ⟨by simp, rfl, ?_⟩
      intro w hw
      exact hacc w (by simpa using hw)
  | cons w rest' ih =>
    intro cs acc hacc s hs
    simp only [splitChunks] at hs
    by_cases hcond : a.max_segment_duration_ms ≤ w.end_time_ms - cs
    · rw [if_pos hcond] at hs
      have hchunk : ∀ y ∈ acc ++ [w], y.confidence < a.confidence_threshold ∧
          0 ≤ y.confidence ∧ y.confidence ≤ 1 := by
        intro y hy
        rcases List.mem_append.mp hy with h | h
        · exact hacc y (List.mem_append.mpr (Or.inl h))
        · obtain rfl : y = w := by simpa using h
          exact hacc y (List.mem_append.mpr (Or.inr (by simp)))
      have hrest' : ∀ y ∈ ([] : List Word) ++ rest',
          y.confidence < a.confidence_threshold ∧
          0 ≤ y.confidence ∧ y.confidence ≤ 1 := by
        intro y hy
        simp only [List.nil_append] at hy
        exact hacc y (List.mem_append.mpr (Or.inr (List.mem_cons_of_mem _ hy)))
      rcases List.mem_cons.mp hs with rfl | hs'
      · exact ⟨by simp, rfl, hchunk⟩
      · exact ih w.end_time_ms [] hrest' s hs'
    · rw [if_neg hcond] at hs
      have hacc' : ∀ y ∈ (acc ++ [w]) ++ rest',
          y.confidence < a.confidence_threshold ∧
          0 ≤ y.confidence ∧ y.confidence ≤ 1 := by
        intro y hy
        rw [List.append_assoc] at hy
        exact hacc y (by simpa using hy)
      exact ih cs (acc ++ [w]) hacc' s hs

/-- Splitting long segments preserves the mean invariant. -/
theorem splitLongSegments_inv {a : ConfidenceAnalyzer}
    {segs : List UncertainSegment}
    (h : ∀ s ∈ segs, SegMeanInv a s) :
    ∀ s ∈ splitLongSegments a segs, SegMeanInv a s := by
  intro s hs
  rw [splitLongSegments] at hs
  rcases List.mem_flatten.mp hs with ⟨chunkList, hcl, hschunk⟩
  rcases List.mem_map.mp hcl with ⟨parent, hparent, hmk⟩
  have hpinv := h parent hparent
  by_cases hshort : parent.end_time_ms - parent.start_time_ms ≤
      a.max_segment_duration_ms
  · rw [if_pos hshort] at hmk
    rw [← hmk] at hschunk
    obtain rfl : s = parent := by simpa using hschunk
    exact hpinv
  · rw [if_neg hshort] at hmk
    rw [← hmk] at hschunk
    exact splitChunks_inv a parent parent.original_words _ []
      (by
        intro w hw
        simp only [List.nil_append] at hw
        exact hpinv.2.2 w hw) s hschunk

/-- C10: every segment identify_uncertain_segments emits has average
confidence strictly below the configured threshold and within the unit
interval, given word confidences in the unit interval (which the pydantic
Word model enforces): grouping admits only words strictly below the
threshold, and segment creation, adjacent merging (count-weighted mean) and
long-segment splitting (per-chunk mean) all preserve the bound. -/
theorem C10_avg_below_threshold (a : ConfidenceAnalyzer) (tr : TranscriptionResult)
    (hvalid : ∀ w ∈ tr.words, 0 ≤ w.confidence ∧ w.confidence ≤ 1) :
    ∀ s ∈ identifyUncertainSegments a tr,
      s.average_confidence < a.confidence_threshold ∧
      0 ≤ s.average_confidence ∧ s.average_confidence ≤ 1 := by
  intro s hs
  rw [identifyUncertainSegments] at hs
  have hgroup := identifyLoop_inv a tr tr.words [] (by simp) hvalid
  have hmerged : ∀ t ∈ mergeAdjacentSegments 1000 (identifyLoop a tr tr.words []),
      SegMeanInv a t := by
    intro t ht
    cases hout : identifyLoop a tr tr.words [] with
    | nil =>
      rw [hout] at ht
      simp only [mergeAdjacentSegments] at ht
      cases ht
    | cons s0 srest =>
      rw [hout] at ht
      simp only [mergeAdjacentSegments] at ht
      refine mergeAux_inv 1000 srest s0 ?_ ?_ t ht
      · exact hgroup s0 (by rw [hout]; simp)
      · intro u hu
        exact hgroup u (by rw [hout]; simp [hu])
  have hinv := splitLongSegments_inv hmerged s hs
  obtain ⟨hne, havg, hbound⟩ := hinv
  refine ⟨?_, ?_⟩
  · rw [havg]
    exact avgConf_lt hne (fun w hw => (hbound w hw).1)
  · rw [havg]
    exact avgConf_bounds hne (fun w hw => (hbound w hw).2)

/-- C10 witness: the segments emitted for the concrete transcript trSplit. -/
theorem C10_witness :
    (∀ w ∈ trSplit.words, 0 ≤ w.confidence ∧ w.confidence ≤ 1) ∧
    (∀ s ∈ identifyUncertainSegments defaultAnalyzer trSplit,
      s.average_confidence < defaultAnalyzer.confidence_threshold ∧
      0 ≤ s.average_confidence ∧ s.average_confidence ≤ 1) :=
  ⟨by decide, C10_avg_below_threshold defaultAnalyzer trSplit (by decide)⟩

/-! ### Merge-loop lemmas shared by C1 and C9 -/

theorem mergeLoop_nil (ds : List OrchestratorDecision) : mergeLoop [] ds = [] := by
  simp only [mergeLoop]

theorem mergeLoop_nil_ds : ∀ ws : List Word, mergeLoop ws [] = ws := by
  intro ws
  induction ws with
  | nil => simp only [mergeLoop]
  | cons w rest ih =>
    simp only [mergeLoop]
    rw [ih]

theorem mergeLoop_fire (w : Word) (rest : List Word) (d : OrchestratorDecision)
    (ds : List OrchestratorDecision)
    (hc : d.segment.start_time_ms ≤ w.start_time_ms ∧
      w.end_time_ms ≤ d.segment.end_time_ms) :
    mergeLoop (w :: rest) (d :: ds) =
      replacementWords d ++
        mergeLoop (rest.dropWhile (fun x => x.end_time_ms ≤ d.segment.end_time_ms)) ds := by
  simp only [mergeLoop]
  rw [if_pos hc]

theorem mergeLoop_skip (w : Word) (rest : List Word) (d : OrchestratorDecision)
    (ds : List OrchestratorDecision)
    (hc : ¬ (d.segment.start_time_ms ≤ w.start_time_ms ∧
      w.end_time_ms ≤ d.segment.end_time_ms)) :
    mergeLoop (w :: rest) (d :: ds) = w :: mergeLoop rest (d :: ds) := by
  simp only [mergeLoop]
  rw [if_neg hc]

/-- A member of a list that fails the predicate survives dropWhile. -/
theorem mem_dropWhile_of_not {α : Type} (p : α → Bool) :
    ∀ {l : List α} {a : α}, a ∈ l → p a = false → a ∈ l.dropWhile p := by
  intro l
  induction l with
  | nil => intro a ha; cases ha
  | cons b t ih =>
    intro a ha hpa
    rw [List.dropWhile_cons]
    by_cases hb : p b
    · rw [if_pos hb]
      rcases List.mem_cons.mp ha with rfl | ha'
      · rw [hpa] at hb; cases hb
      · exact ih ha' hpa
    · rw [if_neg hb]
      exact ha

/-- After dropping the words ending at or before a segment boundary, every
remaining word starts at or after it, provided no word straddles it. -/
theorem dropWhile_lb (E : Int) :
    ∀ {rest : List Word},
      List.Chain' wordLe rest →
      (∀ x ∈ rest, x.start_time_ms ≤ x.end_time_ms) →
      (∀ x ∈ rest, x.end_time_ms ≤ E ∨ E ≤ x.start_time_ms) →
      ∀ x ∈ rest.dropWhile (fun y => y.end_time_ms ≤ E),
        E ≤ x.start_time_ms := by
  intro rest
  induction rest with
  | nil =>
    intro _ _ _ x hx
    cases hx
  | cons a t ih =>
    intro hch hwf hal x hx
    rw [List.dropWhile_cons] at hx
    by_cases ha : a.end_time_ms ≤ E
    · rw [if_pos (by simpa using ha)] at hx
      exact ih hch.tail (fun y hy => hwf y (List.mem_cons_of_mem _ hy))
        (fun y hy => hal y (List.mem_cons_of_mem _ hy)) x hx
    · rw [if_neg (by simpa using ha)] at hx
      have haE : E ≤ a.start_time_ms := by
        rcases hal a (by simp) with h | h
        · exact absurd h ha
        · exact h
      rcases List.mem_cons.mp hx with rfl | hx'
      · exact haE
      · have h1 : a.end_time_ms ≤ x.start_time_ms :=
          chain_tail_lb (fun y : Word => y.start_time_ms) (fun y : Word => y.end_time_ms)
            hch hwf x hx'
        have h2 : a.start_time_ms ≤ a.end_time_ms := hwf a (by simp)
        linarith

/-- The replacement word list of a decision is monotone and lies inside the
decision's segment, provided (for the candidate branch) every candidate's
words do and (for the fallback branch) the segment's own words do; for the
synthesized branch this follows from the timestamp arithmetic. -/
theorem replacementWords_ok {d : OrchestratorDecision}
    (h0 : 0 ≤ d.segment.start_time_ms)
    (hse : d.segment.start_time_ms ≤ d.segment.end_time_ms)
    (hcand : ∀ p ∈ d.candidate_transcriptions,
      List.Chain' wordLe p.2.words ∧
      ∀ x ∈ p.2.words, d.segment.start_time_ms ≤ x.start_time_ms ∧
        x.end_time_ms ≤ d.segment.end_time_ms)
    (horig : List.Chain' wordLe d.segment.original_words ∧
      ∀ x ∈ d.segment.original_words, d.segment.start_time_ms ≤ x.start_time_ms ∧
        x.end_time_ms ≤ d.segment.end_time_ms) :
    List.Chain' wordLe (replacementWords d) ∧
    ∀ r ∈ replacementWords d, d.segment.start_time_ms ≤ r.start_time_ms ∧
      r.end_time_ms ≤ d.segment.end_time_ms := by
  rw [replacementWords]
  by_cases hsyn : d.chosen_source = "synthesized"
  · rw [if_pos hsyn]
    obtain ⟨_, hchain, hmem⟩ := createWords_facts d.final_text
      d.segment.start_time_ms d.segment.end_time_ms d.confidence_boost h0 hse
    exact ⟨hchain, fun r hr => ⟨(hmem r hr).2.2.1, (hmem r hr).2.2.2.1⟩⟩
  · rw [if_neg hsyn]
    cases hlk : dictGet d.chosen_source d.candidate_transcriptions with
    | some c =>
      have hc := hcand _ (dictGet_eq_some_mem hlk)
      constructor
      · exact (List.chain'_map _).mpr (hc.1.imp (fun {a b} h => h))
      · intro r hr
        rcases List.mem_map.mp hr with ⟨cw, hcw, rfl⟩
        exact hc.2 cw hcw
    | none =>
      constructor
      · exact (List.chain'_map _).mpr (horig.1.imp (fun {a b} h => h))
      · intro r hr
        rcases List.mem_map.mp hr with ⟨ow, how, rfl⟩
        exact horig.2 ow how

/-- Invariant proof for the merge walk: with monotone well-formed primary
words, ordered well-formed decision segments aligned to word boundaries, and
replacement words inside their segments, the walk's output is monotone and
bounded below by any lower bound on the input words' starts that also bounds
the current decision's segment start (or the current decision never fires). -/
theorem mergeLoop_mono :
    ∀ (n : Nat) (ws : List Word) (ds : List OrchestratorDecision) (lb : Int),
      ws.length ≤ n →
      List.Chain' wordLe ws →
      (∀ w ∈ ws, w.start_time_ms ≤ w.end_time_ms) →
      List.Chain' decLe ds →
      (∀ d ∈ ds, d.segment.start_time_ms ≤ d.segment.end_time_ms) →
      (∀ w ∈ ws, ∀ d ∈ ds, wordAligned w d.segment) →
      (∀ d ∈ ds, List.Chain' wordLe (replacementWords d) ∧
        ∀ r ∈ replacementWords d, d.segment.start_time_ms ≤ r.start_time_ms ∧
          r.end_time_ms ≤ d.segment.end_time_ms) →
      (∀ w ∈ ws, lb ≤ w.start_time_ms) →
      (∀ d, ds.head? = some d → lb ≤ d.segment.start_time_ms ∨
        ∀ w ∈ ws, ¬ wordInSeg w d.segment) →
      List.Chain' wordLe (mergeLoop ws ds) ∧
      ∀ r ∈ mergeLoop ws ds, lb ≤ r.start_time_ms := by
  intro n
  induction n with
  | zero =>
    intro ws ds lb hlen _ _ _ _ _ _ _ _
    obtain rfl : ws = [] := List.length_eq_zero.mp (Nat.le_zero.mp hlen)
    rw [mergeLoop_nil]
    exact ⟨List.chain'_nil, by simp⟩
  | succ n ih =>
    intro ws ds lb hlen hch hwf hdch hdwf hal hrep hlb hinv
    cases ws with
    | nil =>
      rw [mergeLoop_nil]
      exact ⟨List.chain'_nil, by simp⟩
    | cons w rest =>
      cases ds with
      | nil =>
        rw [mergeLoop_nil_ds]
        exact ⟨hch, hlb⟩
      | cons d ds' =>
        have hlenr : rest.length ≤ n := by
          simp only [List.length_cons] at hlen
          omega
        by_cases hc : d.segment.start_time_ms ≤ w.start_time_ms ∧
            w.end_time_ms ≤ d.segment.end_time_ms
        · rw [mergeLoop_fire _ _ _ _ hc]
          have hlbseg : lb ≤ d.segment.start_time_ms := by
            rcases hinv d rfl with h | hno
            · exact h
            · exact absurd hc (hno w (by simp))
          have hchr : List.Chain' wordLe rest := hch.tail
          have hwfr : ∀ x ∈ rest, x.start_time_ms ≤ x.end_time_ms :=
            fun x hx => hwf x (List.mem_cons_of_mem _ hx)
          have halr : ∀ x ∈ rest,
              x.end_time_ms ≤ d.segment.end_time_ms ∨
              d.segment.end_time_ms ≤ x.start_time_ms :=
            fun x hx => (hal x (List.mem_cons_of_mem _ hx) d (by simp)).2
          have hsuf : rest.dropWhile
              (fun x => x.end_time_ms ≤ d.segment.end_time_ms) <:+ rest :=
            List.dropWhile_suffix _
          have hsub : ∀ x ∈ rest.dropWhile
              (fun x => x.end_time_ms ≤ d.segment.end_time_ms), x ∈ rest :=
            fun x hx => hsuf.sublist.subset hx
          have hlb' := dropWhile_lb d.segment.end_time_ms hchr hwfr halr
          have IH := ih (rest.dropWhile
              (fun x => x.end_time_ms ≤ d.segment.end_time_ms)) ds'
            d.segment.end_time_ms
            (le_trans hsuf.sublist.length_le hlenr)
            (hchr.suffix hsuf)
            (fun x hx => hwfr x (hsub x hx))
            hdch.tail
            (fun e he => hdwf e (List.mem_cons_of_mem _ he))
            (fun x hx e he =>
              hal x (List.mem_cons_of_mem _ (hsub x hx)) e (List.mem_cons_of_mem _ he))
            (fun e he => hrep e (List.mem_cons_of_mem _ he))
            hlb'
            (fun e he => Or.inl ((List.chain'_cons'.mp hdch).1 e he))
          have hrepd := hrep d (by simp)
          constructor
          · refine List.Chain'.append hrepd.1 IH.1 ?_
            intro x hx y hy
            have hxe : x.end_time_ms ≤ d.segment.end_time_ms :=
              (hrepd.2 x (List.mem_of_mem_getLast? hx)).2
            exact le_trans hxe (IH.2 y (List.mem_of_mem_head? hy))
          · intro r hr
            rcases List.mem_append.mp hr with hr | hr
            · exact le_trans hlbseg (hrepd.2 r hr).1
            · exact le_trans (le_trans hlbseg (hdwf d (by simp))) (IH.2 r hr)
        · rw [mergeLoop_skip _ _ _ _ hc]
          have hwfw : w.start_time_ms ≤ w.end_time_ms := hwf w (by simp)
          have hlbrest : ∀ x ∈ rest, w.end_time_ms ≤ x.start_time_ms :=
            chain_tail_lb (fun y : Word => y.start_time_ms) (fun y : Word => y.end_time_ms)
              hch hwf
          have hinv' : ∀ e, (d :: ds').head? = some e →
              w.end_time_ms ≤ e.segment.start_time_ms ∨
              ∀ x ∈ rest, ¬ wordInSeg x e.segment := by
            intro e he
            obtain rfl : d = e := by simpa using he
            rcases (hal w (by simp) d (by simp)).1 with hA | hB
            · exact Or.inl hA
            · right
              intro x hx hins
              have hBe : ¬ w.end_time_ms ≤ d.segment.end_time_ms :=
                fun hle => hc ⟨hB, hle⟩
              have h1 : w.end_time_ms ≤ x.start_time_ms := hlbrest x hx
              have h2 : x.start_time_ms ≤ x.end_time_ms :=
                hwf x (List.mem_cons_of_mem _ hx)
              have h3 : x.end_time_ms ≤ d.segment.end_time_ms := hins.2
              omega
          have IH := ih rest (d :: ds') w.end_time_ms hlenr
            hch.tail (fun x hx => hwf x (List.mem_cons_of_mem _ hx)) hdch hdwf
            (fun x hx e he => hal x (List.mem_cons_of_mem _ hx) e he)
            hrep hlbrest hinv'
          constructor
          · refine List.chain'_cons'.mpr ⟨?_, IH.1⟩
            intro y hy
            exact IH.2 y (List.mem_of_mem_head? hy)
          · intro r hr
            rcases List.mem_cons.mp hr with rfl | hr
            · exact hlb r (by simp)
            · exact le_trans (le_trans (hlb w (by simp)) hwfw) (IH.2 r hr)

/-- The merge walk agrees with the declarative description declMerge when the
primary words are monotone with positive durations, the decision segments are
ordered, well-formed and aligned to word boundaries, and every decision's
segment contains at least one primary word — all guaranteed by the analyzer. -/
theorem mergeLoop_eq_declMerge :
    ∀ (n : Nat) (ws : List Word) (ds : List OrchestratorDecision),
      ws.length ≤ n →
      List.Chain' wordLe ws →
      (∀ w ∈ ws, w.start_time_ms < w.end_time_ms) →
      List.Chain' decLe ds →
      (∀ d ∈ ds, d.segment.start_time_ms ≤ d.segment.end_time_ms) →
      (∀ w ∈ ws, ∀ d ∈ ds, wordAligned w d.segment) →
      (∀ d ∈ ds, ∃ w ∈ ws, wordInSeg w d.segment) →
      mergeLoop ws ds = declMerge ws ds := by
  intro n
  induction n with
  | zero =>
    intro ws ds hlen _ _ _ _ _ hex
    obtain rfl : ws = [] := List.length_eq_zero.mp (Nat.le_zero.mp hlen)
    cases ds with
    | nil => rw [mergeLoop_nil]; rfl
    | cons d ds' =>
      obtain ⟨w, hw, _⟩ := hex d (by simp)
      cases hw
  | succ n ih =>
    intro ws ds hlen hch hpos hdch hdwf hal hex
    cases ws with
    | nil =>
      cases ds with
      | nil => rw [mergeLoop_nil]; rfl
      | cons d ds' =>
        obtain ⟨w, hw, _⟩ := hex d (by simp)
        cases hw
    | cons w rest =>
      cases ds with
      | nil =>
        rw [mergeLoop_nil_ds]
        rfl
      | cons d ds' =>
        have hlenr : rest.length ≤ n := by
          simp only [List.length_cons] at hlen
          omega
        obtain ⟨wI, hwImem, hwIin⟩ := hex d (by simp)
        have hlbrest : ∀ x ∈ rest, w.end_time_ms ≤ x.start_time_ms :=
          chain_tail_lb (fun y : Word => y.start_time_ms)
            (fun y : Word => y.end_time_ms) hch
            (fun y hy => le_of_lt (hpos y hy))
        have hdlb : ∀ e ∈ ds', d.segment.end_time_ms ≤ e.segment.start_time_ms :=
          chain_tail_lb (fun e : OrchestratorDecision => e.segment.start_time_ms)
            (fun e : OrchestratorDecision => e.segment.end_time_ms) hdch hdwf
        by_cases hc : d.segment.start_time_ms ≤ w.start_time_ms ∧
            w.end_time_ms ≤ d.segment.end_time_ms
        · rw [mergeLoop_fire _ _ _ _ hc]
          have hw_not : ¬ (w.end_time_ms ≤ d.segment.start_time_ms) := by
            have := hpos w (by simp)
            omega
          have htake : (w :: rest).takeWhile
              (fun x => x.end_time_ms ≤ d.segment.start_time_ms) = [] := by
            rw [List.takeWhile_cons]
            simp [hw_not]
          have hdrop : (w :: rest).dropWhile
              (fun x => x.end_time_ms ≤ d.segment.end_time_ms) =
              rest.dropWhile (fun x => x.end_time_ms ≤ d.segment.end_time_ms) := by
            rw [List.dropWhile_cons]
            simp [hc.2]
          simp only [declMerge, htake, List.nil_append, hdrop]
          congr 1
          have hsuf : rest.dropWhile
              (fun x => x.end_time_ms ≤ d.segment.end_time_ms) <:+ rest :=
            List.dropWhile_suffix _
          have hsub : ∀ x ∈ rest.dropWhile
              (fun x => x.end_time_ms ≤ d.segment.end_time_ms), x ∈ rest :=
            fun x hx => hsuf.sublist.subset hx
          refine ih _ ds'
            (le_trans hsuf.sublist.length_le hlenr)
            (hch.tail.suffix hsuf)
            (fun x hx => hpos x (List.mem_cons_of_mem _ (hsub x hx)))
            hdch.tail
            (fun e he => hdwf e (List.mem_cons_of_mem _ he))
            (fun x hx e he =>
              hal x (List.mem_cons_of_mem _ (hsub x hx)) e (List.mem_cons_of_mem _ he))
            ?_
          intro e he
          obtain ⟨x, hxmem, hxin⟩ := hex e (List.mem_cons_of_mem _ he)
          have hxlarge : d.segment.end_time_ms < x.end_time_ms := by
            have h1 : e.segment.start_time_ms ≤ x.start_time_ms := hxin.1
            have h2 := hdlb e he
            have h3 := hpos x hxmem
            omega
          have hxne : x ≠ w := by
            intro hxw
            rw [hxw] at hxlarge
            omega
          have hxrest : x ∈ rest := by
            rcases List.mem_cons.mp hxmem with h | h
            · exact absurd h hxne
            · exact h
          refine ⟨x, ?_, hxin⟩
          exact mem_dropWhile_of_not _ hxrest (by simpa using not_le.mpr hxlarge)
        · rcases (hal w (by simp) d (by simp)).1 with hA | hB
          · -- the word ends before the segment: it is copied
            rw [mergeLoop_skip _ _ _ _ hc]
            have htake : (w :: rest).takeWhile
                (fun x => x.end_time_ms ≤ d.segment.start_time_ms) =
                w :: rest.takeWhile
                  (fun x => x.end_time_ms ≤ d.segment.start_time_ms) := by
              rw [List.takeWhile_cons]
              simp [hA]
            have hAe : w.end_time_ms ≤ d.segment.end_time_ms :=
              le_trans hA (hdwf d (by simp))
            have hdrop : (w :: rest).dropWhile
                (fun x => x.end_time_ms ≤ d.segment.end_time_ms) =
                rest.dropWhile (fun x => x.end_time_ms ≤ d.segment.end_time_ms) := by
              rw [List.dropWhile_cons]
              simp [hAe]
            have hrec : mergeLoop rest (d :: ds') = declMerge rest (d :: ds') := by
              refine ih rest (d :: ds') hlenr hch.tail
                (fun x hx => hpos x (List.mem_cons_of_mem _ hx)) hdch hdwf
                (fun x hx e he => hal x (List.mem_cons_of_mem _ hx) e he) ?_
              intro e he
              obtain ⟨x, hxmem, hxin⟩ := hex e he
              have hxstart : w.end_time_ms ≤ x.start_time_ms := by
                rcases List.mem_cons.mp he with rfl | he'
                · -- e is the current decision d: its inside word starts at or
                  -- after the segment start, which w precedes
                  have := hxin.1
                  omega
                · have h1 := hdlb e he'
                  have h2 := hxin.1
                  have h3 := hdwf d (by simp)
                  omega
              have hxne : x ≠ w := by
                intro hxw
                have := hpos w (by simp)
                rw [hxw] at hxstart
                omega
              have hxrest : x ∈ rest := by
                rcases List.mem_cons.mp hxmem with h | h
                · exact absurd h hxne
                · exact h
              exact ⟨x, hxrest, hxin⟩
            simp only [declMerge, htake, List.cons_append, hdrop]
            rw [hrec]
            simp only [declMerge]
          · -- the word starts inside but overshoots the segment end: then no
            -- primary word can lie inside the segment, contradicting hex
            exfalso
            have hBe : ¬ w.end_time_ms ≤ d.segment.end_time_ms :=
              fun hle => hc ⟨hB, hle⟩
            rcases List.mem_cons.mp hwImem with rfl | hwIrest
            · exact hBe hwIin.2
            · have h1 : w.end_time_ms ≤ wI.start_time_ms := hlbrest wI hwIrest
              have h2 := hpos wI hwImem
              have h3 := hwIin.2
              omega

/-! ### C1: monotonicity of the merged transcript -/

/-- C1 amended: the merged transcript's words are monotonically
non-overlapping — including across the boundary between copied primary words
and replacement words — for monotone well-formed primary words and
pipeline-shaped decisions (ordered well-formed segments aligned to primary
word boundaries, as the analyzer produces, with non-negative start times),
PROVIDED every candidate's re-anchored words lie inside its segment bounds.
The code does not enforce that proviso: transcribe_segment transcribes a clip
padded by 100 ms on each side and re-anchors clip timestamps by adding
start_time_ms, so a chosen candidate's words can extend up to 200 ms past the
segment end and overlap the next copied primary word (see the
counterexample). The synthesized and original-words branches need no proviso. -/
theorem C1_amended (primary : TranscriptionResult)
    (decisions : List OrchestratorDecision)
    (hch : List.Chain' wordLe primary.words)
    (hwf : ∀ w ∈ primary.words, w.start_time_ms ≤ w.end_time_ms)
    (hdch : List.Chain' decLe decisions)
    (hdwf : ∀ d ∈ decisions, d.segment.start_time_ms ≤ d.segment.end_time_ms)
    (hd0 : ∀ d ∈ decisions, 0 ≤ d.segment.start_time_ms)
    (hal : ∀ w ∈ primary.words, ∀ d ∈ decisions, wordAligned w d.segment)
    (hcand : ∀ d ∈ decisions, ∀ p ∈ d.candidate_transcriptions,
      List.Chain' wordLe p.2.words ∧
      ∀ x ∈ p.2.words, d.segment.start_time_ms ≤ x.start_time_ms ∧
        x.end_time_ms ≤ d.segment.end_time_ms)
    (horig : ∀ d ∈ decisions, List.Chain' wordLe d.segment.original_words ∧
      ∀ x ∈ d.segment.original_words, d.segment.start_time_ms ≤ x.start_time_ms ∧
        x.end_time_ms ≤ d.segment.end_time_ms) :
    List.Chain' wordLe (mergeDecisions primary decisions).words := by
  have hrep : ∀ d ∈ decisions, List.Chain' wordLe (replacementWords d) ∧
      ∀ r ∈ replacementWords d, d.segment.start_time_ms ≤ r.start_time_ms ∧
        r.end_time_ms ≤ d.segment.end_time_ms :=
    fun d hd => replacementWords_ok (hd0 d hd) (hdwf d hd) (hcand d hd) (horig d hd)
  cases decisions with
  | nil => simpa [mergeDecisions] using hch
  | cons d ds' =>
    have hwords : (mergeDecisions primary (d :: ds')).words =
        mergeLoop primary.words (d :: ds') := by
      simp [mergeDecisions]
    rw [hwords]
    cases hws : primary.words with
    | nil =>
      rw [mergeLoop_nil]
      exact List.chain'_nil
    | cons w0 rest0 =>
      rw [hws] at hch hwf hal
      refine (mergeLoop_mono (w0 :: rest0).length (w0 :: rest0) (d :: ds')
        (min w0.start_time_ms d.segment.start_time_ms)
        (le_refl _) hch hwf hdch hdwf hal hrep ?_ ?_).1
      · intro x hx
        rcases List.mem_cons.mp hx with rfl | hx'
        · exact min_le_left _ _
        · have h1 : w0.end_time_ms ≤ x.start_time_ms :=
            chain_tail_lb (fun y : Word => y.start_time_ms)
              (fun y : Word => y.end_time_ms) hch hwf x hx'
          have h2 := hwf w0 (by simp)
          have h3 := min_le_left w0.start_time_ms d.segment.start_time_ms
          omega
      · intro e he
        obtain rfl : d = e := by simpa using he
        exact Or.inl (min_le_right _ _)

/-- C1 counterexample: the primary transcript prFix is monotone and decPadded
is a pipeline-shaped decision for its middle word's segment, but the chosen
candidate's words were re-anchored from a padded clip and end 100 ms past the
segment end, so the merged transcript's words are not monotone: the word at
1000 to 2100 ms overlaps the following copied word at 2000 to 3000 ms. -/
theorem C1_counterexample :
    ¬ List.Chain' wordLe (mergeDecisions prFix [decPadded]).words := by
  have hw : (mergeDecisions prFix [decPadded]).words =
      [ { text := "the", start_time_ms := 0, end_time_ms := 1000,
          confidence := mkRat 9 10, speaker := none }
      , { text := "patient", start_time_ms := 1000, end_time_ms := 2100,
          confidence := mkRat 9 10, speaker := none }
      , { text := "was", start_time_ms := 2000, end_time_ms := 3000,
          confidence := mkRat 9 10, speaker := none } ] := by
    simp [mergeDecisions, mergeLoop, replacementWords, prFix, decPadded,
      candPadded, segFix, adjustSegmentWords, dictGet]
  rw [hw, chain'_iff_chainCheck]
  decide

/-- C1 witness: merging prGap with the in-bounds candidate decision decSel
yields a monotone transcript. -/
theorem C1_witness :
    List.Chain' wordLe (mergeDecisions prGap [decSel]).words := by
  refine C1_amended prGap [decSel]
    (chain'_iff_chainCheck.mpr (by decide))
    (by decide)
    (List.chain'_singleton _)
    (by decide) (by decide) (by decide)
    ?_ ?_
  · intro d hd p hp
    obtain rfl : d = decSel := by simpa using hd
    obtain rfl : p = ("deepgram",
        { model_name := "deepgram"
          text := "hmm okay"
          confidence := mkRat 4 5
          words :=
            [ { text := "hmm", start_time_ms := 100, end_time_ms := 1000,
                confidence := mkRat 4 5, speaker := none }
            , { text := "okay", start_time_ms := 1100, end_time_ms := 2100,
                confidence := mkRat 4 5, speaker := none } ] }) := by
      simpa [decSel] using hp
    exact ⟨chain'_iff_chainCheck.mpr (by decide), by decide⟩
  · intro d hd
    obtain rfl : d = decSel := by simpa using hd
    exact ⟨chain'_iff_chainCheck.mpr (by decide), by decide⟩

/-! ### C9: words inside a decision's segment are never copied -/

/-- C9: for monotone primary words of positive duration and pipeline-shaped
decisions (ordered, well-formed, word-aligned segments each containing at
least one primary word), the merge equals the declarative description: for
each decision in order, only the primary words ending at or before the
segment start are copied, then the decision's replacement words are emitted,
and every primary word ending at or before the segment end — including
confident gap words of merged segments, which are inside the span but not in
original_words — is consumed and never copied. In the absent-chosen-source
branch the replacement is exactly original_words with boosted confidence
(second conjunct), so consumed gap words are absent from the final
transcript. -/
theorem C9_inside_never_copied (primary : TranscriptionResult)
    (decisions : List OrchestratorDecision)
    (hch : List.Chain' wordLe primary.words)
    (hpos : ∀ w ∈ primary.words, w.start_time_ms < w.end_time_ms)
    (hdch : List.Chain' decLe decisions)
    (hdwf : ∀ d ∈ decisions, d.segment.start_time_ms ≤ d.segment.end_time_ms)
    (hal : ∀ w ∈ primary.words, ∀ d ∈ decisions, wordAligned w d.segment)
    (hex : ∀ d ∈ decisions, ∃ w ∈ primary.words, wordInSeg w d.segment) :
    (mergeDecisions primary decisions).words = declMerge primary.words decisions ∧
    ∀ d ∈ decisions, d.chosen_source ≠ "synthesized" →
      dictGet d.chosen_source d.candidate_transcriptions = none →
      replacementWords d = d.segment.original_words.map
        (fun ow => { ow with confidence := d.confidence_boost }) := by
  constructor
  · cases decisions with
    | nil => simp [mergeDecisions, declMerge]
    | cons d ds' =>
      have hwords : (mergeDecisions primary (d :: ds')).words =
          mergeLoop primary.words (d :: ds') := by
        simp [mergeDecisions]
      rw [hwords]
      exact mergeLoop_eq_declMerge primary.words.length primary.words _
        (le_refl _) hch hpos hdch hdwf hal hex
  · intro d _ hnsyn hlk
    rw [replacementWords, if_neg hnsyn, hlk]

/-- C9 witness: merging prGap with the fallback decision decGap. The merged
segment spans 0 to 2200 ms; the confident word okay (600 to 1600 ms) lies
inside the span but not in original_words, and the resulting transcript (by
the declarative form) contains only the boosted original words and the word
after the segment — okay is gone. -/
theorem C9_witness :
    (mergeDecisions prGap [decGap]).words = declMerge prGap.words [decGap] ∧
    ∀ d ∈ [decGap], d.chosen_source ≠ "synthesized" →
      dictGet d.chosen_source d.candidate_transcriptions = none →
      replacementWords d = d.segment.original_words.map
        (fun ow => { ow with confidence := d.confidence_boost }) :=
  C9_inside_never_copied prGap [decGap]
    (chain'_iff_chainCheck.mpr (by decide))
    (by decide)
    (List.chain'_singleton _)
    (by decide) (by decide) (by decide)

end Theorems

end Nova
